import Mathlib

/-!
A first-fit block allocator over `sbrk`.

Shallow embedding of `allocator.h` / `allocator.cpp`.

* Addresses and `size_t` values are natural numbers; `size_t` arithmetic is
  reduced modulo `2 ^ 64` where the source computes in `size_t`, and the
  conversion of the `sbrk` argument to `intptr_t` is two's complement.
* The headers (`block_meta`) live in a typed store keyed by the address of
  the header, the payload bytes in a byte store keyed by address.  Both stores
  are total: a write never faults and a header write changes no payload byte
  and no other header.  That is the machine's memory as long as every range
  written lies in claimed memory and the blocks are pairwise disjoint (`Inv`).
  `request_space` can break both once `size + META_SIZE` wraps; what is stated
  for such inputs is stated about addresses (which header is written, where a
  range starts and ends, where the break is), not about the content of the
  stores over the ranges that overlap or lie above the break.
* The `while` loop of `malloc` follows `next` pointers; it is run with a fuel
  bound and reports `Fault.diverged` when the bound is hit.
* `assert` is the debug-build one: a failed assertion is `Fault.assertion_failed`.
-/

namespace Smalloc

/-- Largest value of `size_t` (LP64). -/
def SIZE_MAX : Nat := 2 ^ 64 - 1

/-- The header type of `allocator.h`: `size_t size{0}; bool free{true}; block_meta* next{nullptr};`.
The null pointer is address `0`. -/
structure block_meta where
  size : Nat := 0
  free : Bool := true
  next : Nat := 0
deriving DecidableEq, Repr

/-- The macro `META_SIZE`, `sizeof(struct block_meta)`: 8 + 1 (+ 7 padding) + 8 bytes on LP64. -/
def META_SIZE : Nat := 24

/-- Ways a run can fail to return: the scan loop did not finish within the fuel bound,
or the `assert` of `free` failed. -/
inductive Fault where
  | diverged
  | assertion_failed
deriving DecidableEq, Repr

/-- The process heap as the allocator sees it.
`start_brk`, `brk`, `rlimit` describe the program break (initial value, current value and
the highest value the host grants); `hdr` is the typed store of headers, `mem` the byte
store; `sbrk_calls` is an instrumentation counter of the calls made to `sbrk`. -/
structure Heap where
  start_brk : Nat
  brk : Nat
  rlimit : Nat
  hdr : Nat → block_meta
  mem : Nat → Nat
  sbrk_calls : Nat

/-- Conversion of a `size_t` value to `intptr_t` (two's complement, 64 bit). -/
def to_intptr (x : Nat) : Int :=
  if x < 2 ^ 63 then (x : Int) else (x : Int) - 2 ^ 64

/-- The host primitive `void* sbrk(intptr_t increment)`: on success the break moves by
`increment` and the previous break is returned; when the new break would leave
`[start_brk, rlimit]` the call fails (`(void*)-1`, here `none`) and the break stays.
(For a negative increment that would put the break below `start_brk` some C libraries
report success and leave the break in place; an increment is negative only when the sum in
`request_space` has wrapped, and nothing is stated here for such a call.) -/
def sbrk (hp : Heap) (increment : Int) : Option Nat × Heap :=
  if (hp.start_brk : Int) ≤ (hp.brk : Int) + increment
      ∧ (hp.brk : Int) + increment ≤ (hp.rlimit : Int) then
    (some hp.brk,
      { hp with brk := ((hp.brk : Int) + increment).toNat, sbrk_calls := hp.sbrk_calls + 1 })
  else
    (none, { hp with sbrk_calls := hp.sbrk_calls + 1 })

/-- Store `m` as the header at address `a`.  The store is typed and total: the write is
the machine's write of the bytes `[a, a + META_SIZE)` as long as these bytes lie in mapped
memory and in no other header or payload. -/
def Heap.set_hdr (hp : Heap) (a : Nat) (m : block_meta) : Heap :=
  { hp with hdr := Function.update hp.hdr a m }

/-- The call `memcpy(dst, src, n)` on the byte store: the `n` bytes at `dst` become the bytes
that were at `src`.  The store is total: this is the machine's copy as long as both ranges
lie in claimed memory, do not overlap (C leaves overlapping ranges undefined; here the
source is read from the store before the call) and hold no header. -/
def memcpy (hp : Heap) (dst src n : Nat) : Heap :=
  { hp with mem := fun x => if dst ≤ x ∧ x < dst + n then hp.mem (src + (x - dst)) else hp.mem x }

/-- The call `memset(ptr, c, n)` on the byte store.  The store is total: this is the
machine's fill as long as the range lies in claimed memory and holds no header. -/
def memset (hp : Heap) (ptr c n : Nat) : Heap :=
  { hp with mem := fun x => if ptr ≤ x ∧ x < ptr + n then c % 256 else hp.mem x }

/-- The class `allocator`: its only data member is `head`. -/
structure allocator where
  head : Nat
deriving DecidableEq, Repr

namespace allocator

/-- The constructor `allocator::allocator() : head(nullptr) {}`. -/
def new : allocator := { head := 0 }

/-- Method `allocator::request_space`: `sbrk(size + META_SIZE)` with the sum taken in `size_t`
and passed as `intptr_t`; on success writes `size` and `free = false` into the header at
the returned address.  Returns the block address, `0` for `nullptr`. -/
def request_space (hp : Heap) (size : Nat) : Nat × Heap :=
  match sbrk hp (to_intptr ((size + META_SIZE) % 2 ^ 64)) with
  | (none, hp1) => (0, hp1)
  | (some block, hp1) =>
    (block, hp1.set_hdr block { hp1.hdr block with size := size, free := false })

/-- Method `allocator::get_block_ptr`: `static_cast<block_meta*>(ptr) - 1`. -/
def get_block_ptr (ptr : Nat) : Nat := ptr - META_SIZE

/-- The scan loop of `allocator::malloc`: starting at `current`, follow `next` until a block
with `free && size >= size` is found (`some current`) or `current` is null (`none`). -/
def malloc_loop (hdr : Nat → block_meta) (size : Nat) : Nat → Nat → Except Fault (Option Nat)
  | fuel, current =>
    if current = 0 then .ok none
    else match fuel with
      | 0 => .error Fault.diverged
      | fuel + 1 =>
        if (hdr current).free = true ∧ size ≤ (hdr current).size then .ok (some current)
        else malloc_loop hdr size fuel (hdr current).next

/-- Method `allocator::malloc`.  Returns the pointer (`0` for `nullptr`), the allocator and the heap. -/
def malloc (fuel : Nat) (self : allocator) (hp : Heap) (size : Nat) :
    Except Fault (Nat × allocator × Heap) :=
  if size = 0 then .ok (0, self, hp)
  else
    match malloc_loop hp.hdr size fuel self.head with
    | .error e => .error e
    | .ok (some current) =>
      .ok (current + META_SIZE, self, hp.set_hdr current { hp.hdr current with free := false })
    | .ok none =>
      match request_space hp size with
      | (block, hp1) =>
        if block = 0 then .ok (0, self, hp1)
        else
          .ok (block + META_SIZE, { head := block },
            hp1.set_hdr block { hp1.hdr block with next := self.head })

/-- Method `allocator::free`; the `assert` is the one of a debug build. -/
def free (_self : allocator) (hp : Heap) (ptr : Nat) : Except Fault Heap :=
  if ptr = 0 then .ok hp
  else
    if (hp.hdr (get_block_ptr ptr)).free = false then
      .ok (hp.set_hdr (get_block_ptr ptr) { hp.hdr (get_block_ptr ptr) with free := true })
    else .error Fault.assertion_failed

/-- Method `allocator::realloc`. -/
def realloc (fuel : Nat) (self : allocator) (hp : Heap) (ptr size : Nat) :
    Except Fault (Nat × allocator × Heap) :=
  if ptr = 0 then malloc fuel self hp size
  else
    if size ≤ (hp.hdr (get_block_ptr ptr)).size then .ok (ptr, self, hp)
    else
      match malloc fuel self hp size with
      | .error e => .error e
      | .ok (new_ptr, self1, hp1) =>
        if new_ptr = 0 then .ok (0, self1, hp1)
        else
          match free self1 (memcpy hp1 new_ptr ptr (hp1.hdr (get_block_ptr ptr)).size) ptr with
          | .error e => .error e
          | .ok hp3 => .ok (new_ptr, self1, hp3)

/-- The two early returns of `allocator::calloc`:
`size == 0` and `nmemb > numeric_limits<size_t>::max() / size`. -/
def calloc_guard (nmemb size : Nat) : Bool :=
  decide (size = 0) || decide (nmemb > SIZE_MAX / size)

/-- Method `allocator::calloc`; `total_size = nmemb * size` is a `size_t` product. -/
def calloc (fuel : Nat) (self : allocator) (hp : Heap) (nmemb size : Nat) :
    Except Fault (Nat × allocator × Heap) :=
  if calloc_guard nmemb size then .ok (0, self, hp)
  else
    match malloc fuel self hp ((nmemb * size) % 2 ^ 64) with
    | .error e => .error e
    | .ok (ptr, self1, hp1) =>
      if ptr ≠ 0 then .ok (ptr, self1, memset hp1 ptr 0 ((nmemb * size) % 2 ^ 64))
      else .ok (ptr, self1, hp1)

end allocator

/-- The block list seen from `cur`: `rs` are the addresses visited by following `next`
until the null pointer. -/
def Records (hdr : Nat → block_meta) : Nat → List Nat → Prop
  | cur, [] => cur = 0
  | cur, r :: rs => cur ≠ 0 ∧ cur = r ∧ Records hdr (hdr r).next rs

/-- A block satisfies a request: `current->free && current->size >= size`. -/
def fits (hdr : Nat → block_meta) (size r : Nat) : Prop :=
  (hdr r).free = true ∧ size ≤ (hdr r).size

/-- A heap right after process start: the break is at `b`, nothing has been written. -/
def Heap.init (b limit : Nat) : Heap :=
  { start_brk := b, brk := b, rlimit := limit, hdr := fun _ => {}, mem := fun _ => 0,
    sbrk_calls := 0 }

instance Records.decide (hdr : Nat → block_meta) : (cur : Nat) → (rs : List Nat) →
    Decidable (Records hdr cur rs)
  | cur, [] => inferInstanceAs (Decidable (cur = 0))
  | cur, r :: rs =>
    have := Records.decide hdr (hdr r).next rs
    inferInstanceAs (Decidable (cur ≠ 0 ∧ cur = r ∧ Records hdr (hdr r).next rs))

instance fits.decide (hdr : Nat → block_meta) (size r : Nat) : Decidable (fits hdr size r) :=
  inferInstanceAs (Decidable ((hdr r).free = true ∧ size ≤ (hdr r).size))

/-! ## Vocabulary of the statements, scenario states and runs -/

/-- Two free blocks: the head block (100 bytes) and an older, tighter one (60 bytes). -/
def heap_two_free : Heap :=
  { start_brk := 4096, brk := 4304, rlimit := 2 ^ 40,
    hdr := fun a =>
      if a = 4180 then { size := 100, free := true, next := 4096 }
      else if a = 4096 then { size := 60, free := true, next := 0 }
      else {},
    mem := fun _ => 0, sbrk_calls := 2 }

/-- The two-block heap with a limit that leaves no room for another 224 bytes. -/
def heap_exhausted : Heap :=
  { heap_two_free with rlimit := 4400 }

/-- The block list from `cur` with the recorded size and flag of every block:
entries are `(address, size, free)` in traversal order. -/
def Layout (hdr : Nat → block_meta) (cur : Nat) (v : List (Nat × Nat × Bool)) : Prop :=
  Records hdr cur (v.map Prod.fst) ∧
    ∀ e ∈ v, (hdr e.1).size = e.2.1 ∧ (hdr e.1).free = e.2.2

/-- The call sequence of the test `FragmentationAndReuse` up to the two reusing requests:
returns `p1 .. p4`, the results `p5`, `p6` of `malloc(50)` and `malloc(80)`, the allocator
before and after these two calls and the final heap. -/
def fragmentation_and_reuse (fuel : Nat) (hp : Heap) :
    Except Fault ((Nat × Nat × Nat × Nat) × (Nat × Nat) × (allocator × allocator) × Heap) :=
  match allocator.new.malloc fuel hp 100 with
  | .error e => .error e
  | .ok (p1, a1, h1) =>
  match a1.malloc fuel h1 200 with
  | .error e => .error e
  | .ok (p2, a2, h2) =>
  match a2.malloc fuel h2 100 with
  | .error e => .error e
  | .ok (p3, a3, h3) =>
  match a3.malloc fuel h3 200 with
  | .error e => .error e
  | .ok (p4, a4, h4) =>
  match a4.free h4 p1 with
  | .error e => .error e
  | .ok h5 =>
  match a4.free h5 p3 with
  | .error e => .error e
  | .ok h6 =>
  match a4.malloc fuel h6 50 with
  | .error e => .error e
  | .ok (p5, a5, h7) =>
  match a5.malloc fuel h7 80 with
  | .error e => .error e
  | .ok (p6, a6, h8) => .ok ((p1, p2, p3, p4), (p5, p6), (a4, a6), h8)

/-- One in-use block of 100 bytes at the start of the heap, its payload filled with `0xBB`. -/
def heap_filled : Heap :=
  { start_brk := 4096, brk := 4220, rlimit := 2 ^ 40,
    hdr := fun a => if a = 4096 then { size := 100, free := false, next := 0 } else {},
    mem := fun x => if 4120 ≤ x ∧ x < 4220 then 0xBB else 0, sbrk_calls := 1 }

/-- The heap `heap_filled` with a limit that leaves no room for growth. -/
def heap_filled_exhausted : Heap :=
  { heap_filled with rlimit := 4300 }

/-- A sequence of `realloc` calls, each applied to the pointer returned by the previous one. -/
def realloc_each (fuel : Nat) (self : allocator) (hp : Heap) (ptr : Nat) :
    List Nat → Except Fault (Nat × allocator × Heap)
  | [] => .ok (ptr, self, hp)
  | size :: sizes =>
    match self.realloc fuel hp ptr size with
    | .error e => .error e
    | .ok (q, self1, hp1) => realloc_each fuel self1 hp1 q sizes

/-- A sequence of `malloc` calls on one allocator: the returned pointers in call order, the
allocator and the heap after the last call. -/
def malloc_each (fuel : Nat) (self : allocator) (hp : Heap) :
    List Nat → Except Fault (List Nat × allocator × Heap)
  | [] => .ok ([], self, hp)
  | size :: sizes =>
    match self.malloc fuel hp size with
    | .error e => .error e
    | .ok (p, self1, hp1) =>
      match malloc_each fuel self1 hp1 sizes with
      | .error e => .error e
      | .ok (ps, self2, hp2) => .ok (p :: ps, self2, hp2)

/-- The byte ranges `[r, r + META_SIZE + size r)` and `[s, s + META_SIZE + size s)` of the
blocks at `r` and `s` have a byte in common. -/
def blocks_overlap (hdr : Nat → block_meta) (r s : Nat) : Prop :=
  r < s + META_SIZE + (hdr s).size ∧ s < r + META_SIZE + (hdr r).size

instance blocks_overlap.decide (hdr : Nat → block_meta) (r s : Nat) :
    Decidable (blocks_overlap hdr r s) :=
  inferInstanceAs (Decidable (_ ∧ _))

/-- A call of the public interface of `allocator`. -/
inductive Call where
  | malloc (size : Nat)
  | free (ptr : Nat)
  | realloc (ptr size : Nat)
  | calloc (nmemb size : Nat)
deriving DecidableEq, Repr

/-- Run one call; `free`, which returns nothing, reports the null pointer. -/
def Call.run (fuel : Nat) (self : allocator) (hp : Heap) :
    Call → Except Fault (Nat × allocator × Heap)
  | .malloc size => self.malloc fuel hp size
  | .free ptr =>
    match self.free hp ptr with
    | .error e => .error e
    | .ok hp1 => .ok (0, self, hp1)
  | .realloc ptr size => self.realloc fuel hp ptr size
  | .calloc nmemb size => self.calloc fuel hp nmemb size

/-- Run a sequence of calls on one allocator; the state after the last call. -/
def run_calls (fuel : Nat) (self : allocator) (hp : Heap) :
    List Call → Except Fault (allocator × Heap)
  | [] => .ok (self, hp)
  | c :: cs =>
    match c.run fuel self hp with
    | .error e => .error e
    | .ok (_, self1, hp1) => run_calls fuel self1 hp1 cs

/-- The byte count a call asks of `malloc`, plus one header, stays below `2 ^ 63`:
the sum in `request_space` neither wraps nor turns negative as `intptr_t`. -/
def Call.small : Call → Prop
  | .malloc size => size + META_SIZE < 2 ^ 63
  | .free _ => True
  | .realloc _ size => size + META_SIZE < 2 ^ 63
  | .calloc nmemb size => nmemb * size + META_SIZE < 2 ^ 63

/-- The blocks `rs` (newest first) were carved one after the other below `top`: each block
ends at or before the start of the block created after it, the newest at or before `top`. -/
def Carved (hdr : Nat → block_meta) : Nat → List Nat → Prop
  | _, [] => True
  | top, r :: rs => r + META_SIZE + (hdr r).size ≤ top ∧ Carved hdr r rs

/-- The state invariant of the allocator: the block list ends in null, the blocks were carved
in order between the (non-null) initial break and the current break. -/
def Inv (self : allocator) (hp : Heap) (rs : List Nat) : Prop :=
  Records hp.hdr self.head rs ∧ Carved hp.hdr hp.brk rs ∧
    0 < hp.start_brk ∧ hp.start_brk ≤ hp.brk ∧ ∀ r ∈ rs, hp.start_brk ≤ r

/-- The pointers a caller holds after call `c` returned `q`, when it held `live` before:
a non-null result of `malloc`/`calloc` is added, `free(p)` gives up `p`, and a `realloc`
that moved the block (non-null `q ≠ p`) replaces `p` by `q`. -/
def live_after (live : List Nat) : Call → Nat → List Nat
  | .malloc _, q => if q = 0 then live else q :: live
  | .calloc _ _, q => if q = 0 then live else q :: live
  | .free p, _ => live.erase p
  | .realloc p _, q => if q = 0 then live else if q = p then live else q :: live.erase p

/-- The caller's contract: `free` and `realloc` are given null or a pointer it holds. -/
def Call.allowed (live : List Nat) : Call → Prop
  | .free p => p = 0 ∨ p ∈ live
  | .realloc p _ => p = 0 ∨ p ∈ live
  | _ => True

/-- The result `q` of call `c` is no pointer the caller already holds, except that
`realloc(p, _)` may return `p` itself. -/
def Call.result_fresh (live : List Nat) : Call → Nat → Prop
  | .realloc p _, q => q = 0 ∨ q = p ∨ q ∉ live
  | .free _, _ => True
  | _, q => q = 0 ∨ q ∉ live

/-- Ownership invariant: on top of `Inv`, the held pointers are, each once, exactly the data
addresses of the blocks of the list that are in use. -/
def Own (self : allocator) (hp : Heap) (rs : List Nat) (live : List Nat) : Prop :=
  Inv self hp rs ∧ live.Nodup ∧
    ∀ p, p ∈ live ↔ ∃ r ∈ rs, (hp.hdr r).free = false ∧ p = r + META_SIZE

/-- A sequence of calls obeys the caller's contract and stays below the overflow bound, each
call being judged in the state the previous calls produced. -/
def WellBehaved (fuel : Nat) : allocator → Heap → List Nat → List Call → Prop
  | _, _, _, [] => True
  | self, hp, live, c :: cs =>
    c.allowed live ∧ c.small ∧
      match c.run fuel self hp with
      | .error _ => True
      | .ok (q, self1, hp1) => WellBehaved fuel self1 hp1 (live_after live c q) cs

/-- Every call of the sequence returns, and returns a pointer not held at that moment. -/
def AllFresh (fuel : Nat) : allocator → Heap → List Nat → List Call → Prop
  | _, _, _, [] => True
  | self, hp, live, c :: cs =>
    match c.run fuel self hp with
    | .error _ => False
    | .ok (q, self1, hp1) =>
      c.result_fresh live q ∧ AllFresh fuel self1 hp1 (live_after live c q) cs

/-- One free block of 100 bytes at the start of the heap whose payload still holds `0xBB`. -/
def heap_stale : Heap :=
  { start_brk := 4096, brk := 4220, rlimit := 2 ^ 40,
    hdr := fun a => if a = 4096 then { size := 100, free := true, next := 0 } else {},
    mem := fun x => if 4120 ≤ x ∧ x < 4220 then 0xBB else 0, sbrk_calls := 1 }

/-- The pointer a call passes to `free` or `realloc` is null or the data address of a block of
the list `rs` that is in use. -/
def Call.owned (hdr : Nat → block_meta) (rs : List Nat) : Call → Prop
  | .free p => p = 0 ∨ ∃ r ∈ rs, (hdr r).free = false ∧ p = r + META_SIZE
  | .realloc p _ => p = 0 ∨ ∃ r ∈ rs, (hdr r).free = false ∧ p = r + META_SIZE
  | _ => True

/-- Joint invariant of two allocators on one heap: each satisfies `Inv` with its own list and
the two lists have no block in common. -/
def Joint (a1 a2 : allocator) (hp : Heap) (rs1 rs2 : List Nat) : Prop :=
  Inv a1 hp rs1 ∧ Inv a2 hp rs2 ∧ ∀ x ∈ rs1, x ∉ rs2
/-- The header at address `h` (the bytes `[h, h + META_SIZE)`) lies inside the payload
`[r + META_SIZE, r + META_SIZE + size)` of the block at `r`. -/
def header_in_payload (hdr : Nat → block_meta) (h r : Nat) : Prop :=
  r + META_SIZE ≤ h ∧ h + META_SIZE ≤ r + META_SIZE + (hdr r).size

instance header_in_payload.decide (hdr : Nat → block_meta) (h r : Nat) :
    Decidable (header_in_payload hdr h r) :=
  inferInstanceAs (Decidable (_ ∧ _))

/-! ## Lemmas on the block list and the scan loop -/

open allocator

theorem Records.congr_next {hdr hdr' : Nat → block_meta} :
    ∀ (rs : List Nat) (cur : Nat), (∀ r ∈ rs, (hdr' r).next = (hdr r).next) →
      Records hdr cur rs → Records hdr' cur rs
  | [], _, _, h => h
  | r :: rs, cur, hn, h => by
    obtain ⟨h0, h1, h2⟩ := h
    refine ⟨h0, h1, ?_⟩
    rw [hn r (List.mem_cons_self r rs)]
    exact Records.congr_next rs _ (fun x hx => hn x (List.mem_cons_of_mem r hx)) h2

theorem malloc_loop_hit {hdr : Nat → block_meta} {size : Nat} :
    ∀ (pre post : List Nat) (r cur fuel : Nat),
      Records hdr cur (pre ++ r :: post) → (∀ x ∈ pre, ¬ fits hdr size x) → fits hdr size r →
      pre.length < fuel → malloc_loop hdr size fuel cur = .ok (some r)
  | [], post, r, cur, fuel, hrec, _, hfit, hfuel => by
    obtain ⟨h0, h1, _⟩ := hrec
    subst h1
    obtain ⟨n, rfl⟩ : ∃ n, fuel = n + 1 := ⟨fuel - 1, by simp at hfuel; omega⟩
    unfold malloc_loop
    simp only [if_neg h0]
    exact if_pos hfit
  | p :: pre, post, r, cur, fuel, hrec, hpre, hfit, hfuel => by
    obtain ⟨h0, h1, h2⟩ := hrec
    subst h1
    obtain ⟨n, rfl⟩ : ∃ n, fuel = n + 1 := ⟨fuel - 1, by simp at hfuel; omega⟩
    have hp : ¬ ((hdr cur).free = true ∧ size ≤ (hdr cur).size) := hpre cur (List.mem_cons_self _ _)
    unfold malloc_loop
    simp only [if_neg h0]
    rw [if_neg hp]
    exact malloc_loop_hit pre post r _ n h2
      (fun x hx => hpre x (List.mem_cons_of_mem _ hx)) hfit (by simp at hfuel; omega)

theorem malloc_loop_miss {hdr : Nat → block_meta} {size : Nat} :
    ∀ (rs : List Nat) (cur fuel : Nat),
      Records hdr cur rs → (∀ x ∈ rs, ¬ fits hdr size x) →
      rs.length ≤ fuel → malloc_loop hdr size fuel cur = .ok none
  | [], cur, fuel, hrec, _, _ => by
    have h0 : cur = 0 := hrec
    unfold malloc_loop
    exact if_pos h0
  | p :: rs, cur, fuel, hrec, hall, hfuel => by
    obtain ⟨h0, h1, h2⟩ := hrec
    subst h1
    obtain ⟨n, rfl⟩ : ∃ n, fuel = n + 1 := ⟨fuel - 1, by simp at hfuel; omega⟩
    have hp : ¬ ((hdr cur).free = true ∧ size ≤ (hdr cur).size) := hall cur (List.mem_cons_self _ _)
    unfold malloc_loop
    simp only [if_neg h0]
    rw [if_neg hp]
    exact malloc_loop_miss rs _ n h2
      (fun x hx => hall x (List.mem_cons_of_mem _ hx)) (by simp at hfuel; omega)

theorem first_fit_split (P : Nat → Prop) :
    ∀ rs : List Nat, (∀ x ∈ rs, ¬ P x) ∨
      ∃ pre r post, rs = pre ++ r :: post ∧ (∀ x ∈ pre, ¬ P x) ∧ P r
  | [] => Or.inl (fun _ h => absurd h (List.not_mem_nil _))
  | a :: rs => by
    by_cases ha : P a
    · exact Or.inr ⟨[], a, rs, rfl, fun _ h => absurd h (List.not_mem_nil _), ha⟩
    · rcases first_fit_split P rs with h | ⟨pre, r, post, h1, h2, h3⟩
      · left
        intro x hx
        rcases List.mem_cons.1 hx with rfl | hx
        · exact ha
        · exact h x hx
      · right
        refine ⟨a :: pre, r, post, by simp [h1], ?_, h3⟩
        intro x hx
        rcases List.mem_cons.1 hx with rfl | hx
        · exact ha
        · exact h2 x hx

theorem set_hdr_fields (hp : Heap) (r : Nat) (b : Bool) (x : Nat) :
    ((hp.set_hdr r { hp.hdr r with free := b }).hdr x).size = (hp.hdr x).size
      ∧ ((hp.set_hdr r { hp.hdr r with free := b }).hdr x).next = (hp.hdr x).next := by
  by_cases hx : x = r
  · subst hx; simp [Heap.set_hdr]
  · simp [Heap.set_hdr, Function.update_noteq hx]

theorem set_hdr_other (hp : Heap) (r : Nat) (m : block_meta) (x : Nat) (hx : x ≠ r) :
    (hp.set_hdr r m).hdr x = hp.hdr x := by
  simp [Heap.set_hdr, Function.update_noteq hx]

theorem set_hdr_same (hp : Heap) (r : Nat) (m : block_meta) :
    (hp.set_hdr r m).hdr r = m := by
  simp [Heap.set_hdr]

theorem Records.set_flag {hp : Heap} {cur : Nat} {rs : List Nat} (r : Nat) (b : Bool)
    (h : Records hp.hdr cur rs) :
    Records (hp.set_hdr r { hp.hdr r with free := b }).hdr cur rs :=
  Records.congr_next _ _ (fun x _ => (set_hdr_fields hp r b x).2) h

theorem Records.congr_off {hdr hdr' : Nat → block_meta} (rs : List Nat) (cur : Nat)
    (hagree : ∀ r ∈ rs, hdr' r = hdr r) (h : Records hdr cur rs) : Records hdr' cur rs :=
  Records.congr_next rs cur (fun r hr => by rw [hagree r hr]) h

theorem malloc_hit (fuel : Nat) (self : allocator) (hp : Heap) (size : Nat)
    (pre post : List Nat) (r : Nat)
    (hrec : Records hp.hdr self.head (pre ++ r :: post))
    (hsize : 0 < size)
    (hpre : ∀ x ∈ pre, ¬ fits hp.hdr size x)
    (hfit : fits hp.hdr size r)
    (hfuel : (pre ++ r :: post).length ≤ fuel) :
    self.malloc fuel hp size
      = .ok (r + META_SIZE, self, hp.set_hdr r { hp.hdr r with free := false }) := by
  have hloop : malloc_loop hp.hdr size fuel self.head = .ok (some r) :=
    malloc_loop_hit pre post r _ fuel hrec hpre hfit (by simp at hfuel; omega)
  unfold malloc
  rw [if_neg (by omega), hloop]

theorem malloc_miss (fuel : Nat) (self : allocator) (hp : Heap) (size : Nat) (rs : List Nat)
    (hrec : Records hp.hdr self.head rs)
    (hsize : 0 < size)
    (hnone : ∀ x ∈ rs, ¬ fits hp.hdr size x)
    (hfuel : rs.length ≤ fuel) :
    self.malloc fuel hp size =
      if (request_space hp size).1 = 0 then .ok (0, self, (request_space hp size).2)
      else .ok ((request_space hp size).1 + META_SIZE, { head := (request_space hp size).1 },
        (request_space hp size).2.set_hdr (request_space hp size).1
          { (request_space hp size).2.hdr (request_space hp size).1 with next := self.head }) := by
  have hloop : malloc_loop hp.hdr size fuel self.head = .ok none :=
    malloc_loop_miss rs _ fuel hrec hnone hfuel
  unfold malloc
  rw [if_neg (by omega), hloop]

theorem request_space_fail (hp : Heap) (size : Nat)
    (h : (sbrk hp (to_intptr ((size + META_SIZE) % 2 ^ 64))).1 = none) :
    request_space hp size = (0, { hp with sbrk_calls := hp.sbrk_calls + 1 }) := by
  unfold request_space
  unfold sbrk at h ⊢
  split_ifs at h ⊢ with hc
  rfl

theorem request_space_ok (hp : Heap) (size : Nat)
    (h : (sbrk hp (to_intptr ((size + META_SIZE) % 2 ^ 64))).1 ≠ none) :
    request_space hp size = (hp.brk,
      ({ hp with brk := ((hp.brk : Int) + to_intptr ((size + META_SIZE) % 2 ^ 64)).toNat,
                 sbrk_calls := hp.sbrk_calls + 1 } : Heap).set_hdr hp.brk
        { hp.hdr hp.brk with size := size, free := false }) := by
  unfold request_space
  unfold sbrk at h ⊢
  split_ifs at h ⊢ with hc
  all_goals first | rfl | simp at h

theorem malloc_miss_ok (fuel : Nat) (self : allocator) (hp : Heap) (size : Nat) (rs : List Nat)
    (hrec : Records hp.hdr self.head rs)
    (hsize : 0 < size)
    (hnone : ∀ x ∈ rs, ¬ fits hp.hdr size x)
    (hfuel : rs.length ≤ fuel)
    (hbrk : 0 < hp.brk)
    (hgrow : (sbrk hp (to_intptr ((size + META_SIZE) % 2 ^ 64))).1 ≠ none) :
    self.malloc fuel hp size = .ok (hp.brk + META_SIZE, { head := hp.brk },
      ({ hp with brk := ((hp.brk : Int) + to_intptr ((size + META_SIZE) % 2 ^ 64)).toNat,
                 sbrk_calls := hp.sbrk_calls + 1 } : Heap).set_hdr hp.brk
        { size := size, free := false, next := self.head }) := by
  rw [malloc_miss fuel self hp size rs hrec hsize hnone hfuel, request_space_ok hp size hgrow]
  have h0 : hp.brk ≠ 0 := by omega
  simp only [if_neg h0]
  simp [Heap.set_hdr]

theorem malloc_miss_fail (fuel : Nat) (self : allocator) (hp : Heap) (size : Nat) (rs : List Nat)
    (hrec : Records hp.hdr self.head rs)
    (hsize : 0 < size)
    (hnone : ∀ x ∈ rs, ¬ fits hp.hdr size x)
    (hfuel : rs.length ≤ fuel)
    (hgrow : (sbrk hp (to_intptr ((size + META_SIZE) % 2 ^ 64))).1 = none) :
    self.malloc fuel hp size = .ok (0, self, { hp with sbrk_calls := hp.sbrk_calls + 1 }) := by
  rw [malloc_miss fuel self hp size rs hrec hsize hnone hfuel, request_space_fail hp size hgrow]
  simp

theorem malloc_zero (fuel : Nat) (self : allocator) (hp : Heap) :
    self.malloc fuel hp 0 = .ok (0, self, hp) := by
  unfold malloc
  simp

theorem Records.push {hp : Heap} {head : Nat} {rs : List Nat} (b : Nat) (m : block_meta)
    (hrec : Records hp.hdr head rs) (hb : b ≠ 0) (hfresh : ∀ x ∈ rs, x ≠ b)
    (hnext : m.next = head) :
    Records (hp.set_hdr b m).hdr b (b :: rs) := by
  refine ⟨hb, rfl, ?_⟩
  rw [set_hdr_same, hnext]
  exact Records.congr_off rs head (fun x hx => set_hdr_other hp b m x (hfresh x hx)) hrec

theorem to_intptr_small (x : Nat) (h : x < 2 ^ 63) : to_intptr (x % 2 ^ 64) = (x : Int) := by
  unfold to_intptr
  have : x % 2 ^ 64 = x := Nat.mod_eq_of_lt (by omega)
  rw [this, if_pos h]

theorem sbrk_room (hp : Heap) (size : Nat) (hsz : size + META_SIZE < 2 ^ 63)
    (hstart : hp.start_brk ≤ hp.brk) (hroom : hp.brk + (size + META_SIZE) ≤ hp.rlimit) :
    sbrk hp (to_intptr ((size + META_SIZE) % 2 ^ 64)) =
      (some hp.brk, { hp with brk := hp.brk + (size + META_SIZE),
                              sbrk_calls := hp.sbrk_calls + 1 }) := by
  rw [to_intptr_small _ hsz]
  unfold sbrk
  have h1 : (hp.start_brk : Int) ≤ (hp.brk : Int) + ((size + META_SIZE : Nat) : Int) := by
    omega
  have h2 : (hp.brk : Int) + ((size + META_SIZE : Nat) : Int) ≤ (hp.rlimit : Int) := by
    omega
  rw [if_pos ⟨h1, h2⟩]
  have h3 : ((hp.brk : Int) + ((size + META_SIZE : Nat) : Int)).toNat
      = hp.brk + (size + META_SIZE) := by omega
  rw [h3]

theorem malloc_miss_room (fuel : Nat) (self : allocator) (hp : Heap) (size : Nat) (rs : List Nat)
    (hrec : Records hp.hdr self.head rs)
    (hsize : 0 < size)
    (hnone : ∀ x ∈ rs, ¬ fits hp.hdr size x)
    (hfuel : rs.length ≤ fuel)
    (hbrk : 0 < hp.brk)
    (hsz : size + META_SIZE < 2 ^ 63)
    (hstart : hp.start_brk ≤ hp.brk) (hroom : hp.brk + (size + META_SIZE) ≤ hp.rlimit) :
    self.malloc fuel hp size = .ok (hp.brk + META_SIZE, { head := hp.brk },
      ({ hp with brk := hp.brk + (size + META_SIZE),
                 sbrk_calls := hp.sbrk_calls + 1 } : Heap).set_hdr hp.brk
        { size := size, free := false, next := self.head }) := by
  have hs := sbrk_room hp size hsz hstart hroom
  rw [malloc_miss_ok fuel self hp size rs hrec hsize hnone hfuel hbrk (by rw [hs]; simp)]
  rw [to_intptr_small _ hsz]
  have h3 : ((hp.brk : Int) + ((size + META_SIZE : Nat) : Int)).toNat
      = hp.brk + (size + META_SIZE) := by omega
  rw [h3]

theorem Layout.fits_iff {hdr : Nat → block_meta} {cur : Nat} {v : List (Nat × Nat × Bool)}
    (h : Layout hdr cur v) (size : Nat) (e : Nat × Nat × Bool) (he : e ∈ v) :
    fits hdr size e.1 ↔ (e.2.2 = true ∧ size ≤ e.2.1) := by
  unfold fits
  rw [(h.2 e he).1, (h.2 e he).2]

theorem Layout.cons_block {hp : Heap} {head : Nat} {v : List (Nat × Nat × Bool)} (b size : Nat)
    (h : Layout hp.hdr head v) (hb : b ≠ 0) (hfresh : ∀ e ∈ v, e.1 ≠ b) :
    Layout (hp.set_hdr b { size := size, free := false, next := head }).hdr b
      ((b, size, false) :: v) := by
  constructor
  · exact Records.push b _ h.1 hb
      (fun x hx => by
        obtain ⟨e, he, rfl⟩ := List.mem_map.1 hx
        exact hfresh e he) rfl
  · intro e he
    rcases List.mem_cons.1 he with rfl | he
    · simp [set_hdr_same]
    · rw [set_hdr_other hp b _ e.1 (hfresh e he)]
      exact h.2 e he

theorem Layout.with_flag {hp : Heap} {head : Nat} (pre post : List (Nat × Nat × Bool))
    (a s : Nat) (f f' : Bool)
    (h : Layout hp.hdr head (pre ++ (a, s, f) :: post))
    (hpre : ∀ e ∈ pre, e.1 ≠ a) (hpost : ∀ e ∈ post, e.1 ≠ a) :
    Layout (hp.set_hdr a { hp.hdr a with free := f' }).hdr head (pre ++ (a, s, f') :: post) := by
  constructor
  · have := Records.set_flag a f' h.1
    simpa using this
  · intro e he
    have hsz : (hp.hdr a).size = s := (h.2 (a, s, f) (by simp)).1
    rcases List.mem_append.1 he with he | he
    · rw [set_hdr_other hp a _ e.1 (hpre e he)]
      exact h.2 e (List.mem_append_left _ he)
    · rcases List.mem_cons.1 he with rfl | he
      · simp [set_hdr_same, hsz]
      · rw [set_hdr_other hp a _ e.1 (hpost e he)]
        exact h.2 e (List.mem_append_right _ (List.mem_cons_of_mem _ he))

theorem malloc_miss_layout (fuel : Nat) (self : allocator) (hp : Heap) (size : Nat)
    (v : List (Nat × Nat × Bool))
    (hlay : Layout hp.hdr self.head v)
    (hsize : 0 < size)
    (hnone : ∀ e ∈ v, ¬ (e.2.2 = true ∧ size ≤ e.2.1))
    (hbelow : ∀ e ∈ v, e.1 < hp.brk)
    (hfuel : v.length ≤ fuel)
    (hbrk : 0 < hp.brk)
    (hsz : size + META_SIZE < 2 ^ 63)
    (hstart : hp.start_brk ≤ hp.brk) (hroom : hp.brk + (size + META_SIZE) ≤ hp.rlimit) :
    ∃ hp' : Heap, self.malloc fuel hp size = .ok (hp.brk + META_SIZE, { head := hp.brk }, hp')
      ∧ Layout hp'.hdr hp.brk ((hp.brk, size, false) :: v)
      ∧ hp'.brk = hp.brk + (size + META_SIZE)
      ∧ hp'.start_brk = hp.start_brk ∧ hp'.rlimit = hp.rlimit ∧ hp'.mem = hp.mem := by
  refine ⟨_, malloc_miss_room fuel self hp size _ hlay.1 hsize ?_ (by simpa using hfuel) hbrk hsz
    hstart hroom, ?_, rfl, rfl, rfl, rfl⟩
  · intro x hx
    obtain ⟨e, he, rfl⟩ := List.mem_map.1 hx
    rw [hlay.fits_iff size e he]
    exact hnone e he
  · exact @Layout.cons_block
      ⟨hp.start_brk, hp.brk + (size + META_SIZE), hp.rlimit, hp.hdr, hp.mem, hp.sbrk_calls + 1⟩
      self.head v hp.brk size hlay (by omega) (fun e he => Nat.ne_of_lt (hbelow e he))

theorem malloc_hit_layout (fuel : Nat) (self : allocator) (hp : Heap) (size : Nat)
    (pre post : List (Nat × Nat × Bool)) (a s : Nat)
    (hlay : Layout hp.hdr self.head (pre ++ (a, s, true) :: post))
    (hsize : 0 < size)
    (hpre : ∀ e ∈ pre, ¬ (e.2.2 = true ∧ size ≤ e.2.1) ∧ e.1 ≠ a)
    (hpost : ∀ e ∈ post, e.1 ≠ a)
    (hfit : size ≤ s)
    (hfuel : (pre ++ (a, s, true) :: post).length ≤ fuel) :
    ∃ hp' : Heap, self.malloc fuel hp size = .ok (a + META_SIZE, self, hp')
      ∧ Layout hp'.hdr self.head (pre ++ (a, s, false) :: post)
      ∧ hp'.brk = hp.brk
      ∧ hp'.start_brk = hp.start_brk ∧ hp'.rlimit = hp.rlimit ∧ hp'.mem = hp.mem := by
  have hrec : Records hp.hdr self.head (pre.map Prod.fst ++ a :: post.map Prod.fst) := by
    simpa using hlay.1
  refine ⟨_, malloc_hit fuel self hp size _ _ a hrec hsize ?_ ?_ (by simpa using hfuel),
    Layout.with_flag pre post a s true false hlay (fun e he => (hpre e he).2) hpost,
    rfl, rfl, rfl, rfl⟩
  · intro x hx
    obtain ⟨e, he, rfl⟩ := List.mem_map.1 hx
    rw [hlay.fits_iff size e (List.mem_append_left _ he)]
    exact (hpre e he).1
  · have := hlay.fits_iff size (a, s, true) (by simp)
    exact this.2 ⟨rfl, hfit⟩

theorem free_layout (self : allocator) (hp : Heap) (head : Nat)
    (pre post : List (Nat × Nat × Bool)) (a s : Nat)
    (hlay : Layout hp.hdr head (pre ++ (a, s, false) :: post))
    (hpre : ∀ e ∈ pre, e.1 ≠ a)
    (hpost : ∀ e ∈ post, e.1 ≠ a) :
    ∃ hp' : Heap, self.free hp (a + META_SIZE) = .ok hp'
      ∧ Layout hp'.hdr head (pre ++ (a, s, true) :: post)
      ∧ hp'.brk = hp.brk
      ∧ hp'.start_brk = hp.start_brk ∧ hp'.rlimit = hp.rlimit ∧ hp'.mem = hp.mem := by
  have hflag : (hp.hdr a).free = false := (hlay.2 (a, s, false) (by simp)).2
  refine ⟨hp.set_hdr a { hp.hdr a with free := true }, ?_,
    Layout.with_flag pre post a s false true hlay hpre hpost, rfl, rfl, rfl, rfl⟩
  unfold free get_block_ptr
  have h0 : a + META_SIZE ≠ 0 := by unfold META_SIZE; omega
  rw [if_neg h0, Nat.add_sub_cancel, if_pos hflag]

theorem fragmentation_and_reuse_eq (fuel : Nat) (hp : Heap) (hfuel : 4 ≤ fuel)
    (hbrk : 0 < hp.brk) (hstart : hp.start_brk ≤ hp.brk) (hroom : hp.brk + 696 ≤ hp.rlimit) :
    ∃ h8 : Heap, fragmentation_and_reuse fuel hp =
        .ok ((hp.brk + 24, hp.brk + 148, hp.brk + 372, hp.brk + 496),
          (hp.brk + 372, hp.brk + 24), (⟨hp.brk + 472⟩, ⟨hp.brk + 472⟩), h8)
      ∧ Layout h8.hdr (hp.brk + 472)
          [(hp.brk + 472, 200, false), (hp.brk + 348, 100, false),
           (hp.brk + 124, 200, false), (hp.brk, 100, false)]
      ∧ h8.brk = hp.brk + 696 := by
  obtain ⟨h1, e1, l1, b1, s1, r1, -⟩ := malloc_miss_layout fuel allocator.new hp 100 []
    ⟨rfl, by simp⟩ (by decide) (by simp) (by simp) (by simp) hbrk (by decide) hstart
    (by unfold META_SIZE; omega)
  simp only [META_SIZE] at b1
  obtain ⟨h2, e2, l2, b2, s2, r2, -⟩ := malloc_miss_layout fuel ⟨hp.brk⟩ h1 200 _
    l1 (by decide) (by simp) (by simp; omega) (by simp; omega) (by omega) (by decide) (by omega)
    (by unfold META_SIZE; omega)
  simp only [META_SIZE] at b2
  obtain ⟨h3, e3, l3, b3, s3, r3, -⟩ := malloc_miss_layout fuel ⟨h1.brk⟩ h2 100 _
    l2 (by decide) (by simp) (by simp; omega) (by simp; omega) (by omega) (by decide)
    (by omega) (by unfold META_SIZE; omega)
  simp only [META_SIZE] at b3
  obtain ⟨h4, e4, l4, b4, s4, r4, -⟩ := malloc_miss_layout fuel ⟨h2.brk⟩ h3 200 _
    l3 (by decide) (by simp) (by simp; omega) (by simp; omega) (by omega)
    (by decide) (by omega) (by unfold META_SIZE; omega)
  simp only [META_SIZE] at b4
  obtain ⟨h5, e5, l5, b5, -⟩ := free_layout ⟨h3.brk⟩ h4 h3.brk
    [(h3.brk, 200, false), (h2.brk, 100, false), (h1.brk, 200, false)] [] hp.brk 100
    (by simpa using l4) (by simp; omega) (by simp)
  obtain ⟨h6, e6, l6, b6, -⟩ := free_layout ⟨h3.brk⟩ h5 h3.brk
    [(h3.brk, 200, false)] [(h1.brk, 200, false), (hp.brk, 100, true)] h2.brk 100
    (by simpa using l5) (by simp; omega) (by simp; omega)
  obtain ⟨h7, e7, l7, b7, -⟩ := malloc_hit_layout fuel ⟨h3.brk⟩ h6 50
    [(h3.brk, 200, false)] [(h1.brk, 200, false), (hp.brk, 100, true)] h2.brk 100
    (by simpa using l6) (by decide) (by simp; omega) (by simp; omega) (by decide)
    (by simp; omega)
  obtain ⟨h8, e8, l8, b8, -⟩ := malloc_hit_layout fuel ⟨h3.brk⟩ h7 80
    [(h3.brk, 200, false), (h2.brk, 100, false), (h1.brk, 200, false)] [] hp.brk 100
    (by simpa using l7) (by decide) (by simp; omega) (by simp) (by decide) (by simp; omega)
  have c1 : h1.brk = hp.brk + 124 := by omega
  have c2 : h2.brk = hp.brk + 348 := by omega
  have c3 : h3.brk = hp.brk + 472 := by omega
  simp only [c1, c2, c3, META_SIZE, Nat.add_assoc, Nat.reduceAdd]
    at e1 e2 e3 e4 e5 e6 e7 e8 l8
  refine ⟨h8, ?_, by simpa using l8, by omega⟩
  unfold fragmentation_and_reuse
  simp only [e1, e2, e3, e4, e5, e6, e7, e8]

theorem realloc_grow_eq (fuel : Nat) (self self1 : allocator) (hp hp1 : Heap)
    (p q newSize : Nat)
    (hp0 : p ≠ 0)
    (hlt : (hp.hdr (get_block_ptr p)).size < newSize)
    (hm : self.malloc fuel hp newSize = .ok (q, self1, hp1))
    (hq0 : q ≠ 0)
    (hused : (hp1.hdr (get_block_ptr p)).free = false) :
    self.realloc fuel hp p newSize = .ok (q, self1,
      (memcpy hp1 q p (hp1.hdr (get_block_ptr p)).size).set_hdr (get_block_ptr p)
        { hp1.hdr (get_block_ptr p) with free := true }) := by
  unfold realloc
  rw [if_neg hp0, if_neg (by omega), hm]
  simp only [if_neg hq0]
  unfold free
  rw [if_neg hp0]
  have hused' : ((memcpy hp1 q p (hp1.hdr (get_block_ptr p)).size).hdr (get_block_ptr p)).free
      = false := hused
  rw [if_pos hused']
  rfl

theorem get_block_ptr_data (r : Nat) : get_block_ptr (r + META_SIZE) = r := by
  unfold get_block_ptr
  omega

theorem memcpy_prefix (h1 : Heap) (q p n i : Nat) (hi : i < n) :
    (memcpy h1 q p n).mem (q + i) = h1.mem (p + i) := by
  unfold memcpy
  simp only
  rw [if_pos ⟨by omega, by omega⟩]
  congr 2
  omega

theorem malloc_loop_cycle (hdr : Nat → block_meta) (size c : Nat) (hc : c ≠ 0)
    (hself : (hdr c).next = c) (hno : ¬ fits hdr size c) :
    ∀ fuel, malloc_loop hdr size fuel c = .error Fault.diverged
  | 0 => by
    unfold malloc_loop
    rw [if_neg hc]
  | fuel + 1 => by
    unfold malloc_loop
    rw [if_neg hc]
    have hno' : ¬ ((hdr c).free = true ∧ size ≤ (hdr c).size) := hno
    simp only [if_neg hno', hself]
    exact malloc_loop_cycle hdr size c hc hself hno fuel

theorem malloc_cycle (self : allocator) (hp : Heap) (size : Nat) (hsize : 0 < size)
    (hc : self.head ≠ 0) (hself : (hp.hdr self.head).next = self.head)
    (hno : ¬ fits hp.hdr size self.head) (fuel : Nat) :
    self.malloc fuel hp size = .error Fault.diverged := by
  unfold malloc
  rw [if_neg (by omega), malloc_loop_cycle hp.hdr size self.head hc hself hno fuel]

theorem Carved.congr_size {hdr hdr' : Nat → block_meta} :
    ∀ (rs : List Nat) (top : Nat), (∀ r ∈ rs, (hdr' r).size = (hdr r).size) →
      Carved hdr top rs → Carved hdr' top rs
  | [], _, _, _ => trivial
  | r :: rs, top, heq, h => by
    refine ⟨?_, Carved.congr_size rs r (fun x hx => heq x (List.mem_cons_of_mem _ hx)) h.2⟩
    rw [heq r (List.mem_cons_self _ _)]
    exact h.1

theorem Carved.mono {hdr : Nat → block_meta} :
    ∀ (rs : List Nat) (top top' : Nat), top ≤ top' → Carved hdr top rs → Carved hdr top' rs
  | [], _, _, _, _ => trivial
  | _ :: _, _, _, hle, h => ⟨Nat.le_trans h.1 hle, h.2⟩

theorem Carved.end_le {hdr : Nat → block_meta} :
    ∀ (rs : List Nat) (top : Nat), Carved hdr top rs →
      ∀ r ∈ rs, r + META_SIZE + (hdr r).size ≤ top
  | [], _, _, _, hr => absurd hr (List.not_mem_nil _)
  | a :: rs, top, h, r, hr => by
    rcases List.mem_cons.1 hr with rfl | hr
    · exact h.1
    · have := Carved.end_le rs a h.2 r hr
      have := h.1
      omega

theorem Carved.pairwise {hdr : Nat → block_meta} :
    ∀ (rs : List Nat) (top : Nat), Carved hdr top rs →
      rs.Pairwise (fun r s => ¬ blocks_overlap hdr r s)
  | [], _, _ => List.Pairwise.nil
  | a :: rs, top, h => by
    refine List.Pairwise.cons ?_ (Carved.pairwise rs a h.2)
    intro s hs hov
    have := Carved.end_le rs a h.2 s hs
    unfold blocks_overlap at hov
    omega

theorem Inv.below {self : allocator} {hp : Heap} {rs : List Nat} (h : Inv self hp rs) :
    ∀ r ∈ rs, r < hp.brk := by
  intro r hr
  have := Carved.end_le rs hp.brk h.2.1 r hr
  unfold META_SIZE at this
  omega

theorem Inv.brk_pos {self : allocator} {hp : Heap} {rs : List Nat} (h : Inv self hp rs) :
    0 < hp.brk := by
  have := h.2.2.1
  have := h.2.2.2.1
  omega

theorem Inv.flag_update {self : allocator} {hp : Heap} {rs : List Nat} (a : Nat) (b : Bool)
    (h : Inv self hp rs) : Inv self (hp.set_hdr a { hp.hdr a with free := b }) rs :=
  ⟨Records.set_flag a b h.1,
    Carved.congr_size rs _ (fun x _ => (set_hdr_fields hp a b x).1) h.2.1,
    h.2.2.1, h.2.2.2.1, h.2.2.2.2⟩

theorem Inv.same_hdr {self : allocator} {hp hp' : Heap} {rs : List Nat}
    (h : Inv self hp rs) (hh : hp'.hdr = hp.hdr) (hb : hp'.brk = hp.brk)
    (hs : hp'.start_brk = hp.start_brk) : Inv self hp' rs := by
  unfold Inv
  rw [hh, hb, hs]
  exact h

theorem malloc_loop_mono (hdr : Nat → block_meta) (size : Nat) :
    ∀ (fuel fuel' cur : Nat) (x : Option Nat), fuel ≤ fuel' →
      malloc_loop hdr size fuel cur = .ok x → malloc_loop hdr size fuel' cur = .ok x
  | 0, fuel', cur, x, _, h => by
    unfold malloc_loop at h
    by_cases hc : cur = 0
    · rw [if_pos hc] at h
      unfold malloc_loop
      rw [if_pos hc]
      exact h
    · rw [if_neg hc] at h
      exact Except.noConfusion h
  | fuel + 1, fuel', cur, x, hle, h => by
    obtain ⟨n, rfl⟩ : ∃ n, fuel' = n + 1 := ⟨fuel' - 1, by omega⟩
    unfold malloc_loop at h ⊢
    by_cases hc : cur = 0
    · rw [if_pos hc] at h ⊢
      exact h
    · rw [if_neg hc] at h ⊢
      by_cases hf : (hdr cur).free = true ∧ size ≤ (hdr cur).size
      · simp only [if_pos hf] at h ⊢
        exact h
      · simp only [if_neg hf] at h ⊢
        exact malloc_loop_mono hdr size fuel n _ x (by omega) h

theorem malloc_fuel_mono (fuel fuel' : Nat) (self : allocator) (hp : Heap) (size : Nat)
    (x : Nat × allocator × Heap) (hle : fuel ≤ fuel')
    (h : self.malloc fuel hp size = .ok x) : self.malloc fuel' hp size = .ok x := by
  unfold malloc at h ⊢
  by_cases h0 : size = 0
  · rw [if_pos h0] at h ⊢
    exact h
  · rw [if_neg h0] at h ⊢
    cases hl : malloc_loop hp.hdr size fuel self.head with
    | error e =>
      rw [hl] at h
      exact Except.noConfusion h
    | ok o =>
      rw [malloc_loop_mono hp.hdr size fuel fuel' _ o hle hl]
      rw [hl] at h
      exact h

theorem malloc_keeps_inv (fuel : Nat) (self self' : allocator) (hp hp' : Heap) (size p : Nat)
    (rs : List Nat) (h : Inv self hp rs) (hsmall : size + META_SIZE < 2 ^ 63)
    (hrun : self.malloc fuel hp size = .ok (p, self', hp')) :
    ∃ rs', Inv self' hp' rs' := by
  have hrun := malloc_fuel_mono fuel (max fuel rs.length) self hp size _ (Nat.le_max_left _ _) hrun
  have hfuel : rs.length ≤ max fuel rs.length := Nat.le_max_right _ _
  generalize max fuel rs.length = fuel at hrun hfuel
  rcases Nat.eq_zero_or_pos size with h0 | hpos
  · subst h0
    rw [malloc_zero] at hrun
    injection hrun with hrun
    simp only [Prod.mk.injEq] at hrun
    obtain ⟨-, rfl, rfl⟩ := hrun
    exact ⟨rs, h⟩
  · rcases first_fit_split (fits hp.hdr size) rs with hnone | ⟨pre, t, post, hsplit, hpre, hfit⟩
    · by_cases hgrow : (sbrk hp (to_intptr ((size + META_SIZE) % 2 ^ 64))).1 = none
      · rw [malloc_miss_fail fuel self hp size rs h.1 hpos hnone hfuel hgrow] at hrun
        injection hrun with hrun
        simp only [Prod.mk.injEq] at hrun
        obtain ⟨-, rfl, rfl⟩ := hrun
        exact ⟨rs, h.same_hdr rfl rfl rfl⟩
      · have hroom : hp.brk + (size + META_SIZE) ≤ hp.rlimit := by
          by_contra hc
          apply hgrow
          rw [to_intptr_small _ hsmall]
          unfold sbrk
          rw [if_neg (by omega)]
        rw [malloc_miss_room fuel self hp size rs h.1 hpos hnone hfuel h.brk_pos hsmall
          h.2.2.2.1 hroom] at hrun
        injection hrun with hrun
        simp only [Prod.mk.injEq] at hrun
        obtain ⟨-, rfl, rfl⟩ := hrun
        refine ⟨hp.brk :: rs, ?_, ?_, h.2.2.1, ?_, ?_⟩
        · exact @Records.push
            ⟨hp.start_brk, hp.brk + (size + META_SIZE), hp.rlimit, hp.hdr, hp.mem,
              hp.sbrk_calls + 1⟩
            self.head rs hp.brk _ h.1 (Nat.ne_of_gt h.brk_pos)
            (fun x hx => Nat.ne_of_lt (h.below x hx)) rfl
        · refine ⟨?_, ?_⟩
          · show hp.brk + META_SIZE + ((Heap.set_hdr _ hp.brk _).hdr hp.brk).size
              ≤ hp.brk + (size + META_SIZE)
            rw [set_hdr_same]
            show hp.brk + META_SIZE + size ≤ hp.brk + (size + META_SIZE)
            omega
          · exact Carved.congr_size rs _
              (fun x hx => by
                show ((Heap.set_hdr _ hp.brk _).hdr x).size = (hp.hdr x).size
                rw [set_hdr_other _ _ _ x (Nat.ne_of_lt (h.below x hx))]) h.2.1
        · show hp.start_brk ≤ hp.brk + (size + META_SIZE)
          have := h.2.2.2.1
          omega
        · intro r hr
          rcases List.mem_cons.1 hr with rfl | hr
          · exact h.2.2.2.1
          · exact h.2.2.2.2 r hr
    · subst hsplit
      rw [malloc_hit fuel self hp size pre post t h.1 hpos hpre hfit hfuel] at hrun
      injection hrun with hrun
      simp only [Prod.mk.injEq] at hrun
      obtain ⟨-, rfl, rfl⟩ := hrun
      exact ⟨_, h.flag_update t false⟩

theorem free_keeps_inv (self a : allocator) (hp hp' : Heap) (ptr : Nat) (rs : List Nat)
    (h : Inv self hp rs) (hrun : a.free hp ptr = .ok hp') : Inv self hp' rs := by
  unfold free at hrun
  by_cases h0 : ptr = 0
  · rw [if_pos h0] at hrun
    injection hrun with hrun
    rw [← hrun]
    exact h
  · rw [if_neg h0] at hrun
    by_cases hf : (hp.hdr (get_block_ptr ptr)).free = false
    · rw [if_pos hf] at hrun
      injection hrun with hrun
      rw [← hrun]
      exact h.flag_update _ true
    · rw [if_neg hf] at hrun
      exact Except.noConfusion hrun

theorem realloc_keeps_inv (fuel : Nat) (self self' : allocator) (hp hp' : Heap)
    (ptr size p : Nat) (rs : List Nat) (h : Inv self hp rs)
    (hsmall : size + META_SIZE < 2 ^ 63)
    (hrun : self.realloc fuel hp ptr size = .ok (p, self', hp')) :
    ∃ rs', Inv self' hp' rs' := by
  unfold realloc at hrun
  by_cases h0 : ptr = 0
  · rw [if_pos h0] at hrun
    exact malloc_keeps_inv fuel self self' hp hp' size p rs h hsmall hrun
  · rw [if_neg h0] at hrun
    by_cases hle : size ≤ (hp.hdr (get_block_ptr ptr)).size
    · rw [if_pos hle] at hrun
      injection hrun with hrun
      simp only [Prod.mk.injEq] at hrun
      obtain ⟨-, rfl, rfl⟩ := hrun
      exact ⟨rs, h⟩
    · rw [if_neg hle] at hrun
      cases hm : self.malloc fuel hp size with
      | error e =>
        rw [hm] at hrun
        exact Except.noConfusion hrun
      | ok x =>
        obtain ⟨q, self1, hp1⟩ := x
        obtain ⟨rs1, h1⟩ := malloc_keeps_inv fuel self self1 hp hp1 size q rs h hsmall hm
        rw [hm] at hrun
        simp only at hrun
        by_cases hq : q = 0
        · rw [if_pos hq] at hrun
          injection hrun with hrun
          simp only [Prod.mk.injEq] at hrun
          obtain ⟨-, rfl, rfl⟩ := hrun
          exact ⟨rs1, h1⟩
        · rw [if_neg hq] at hrun
          cases hfr : self1.free (memcpy hp1 q ptr (hp1.hdr (get_block_ptr ptr)).size) ptr with
          | error e =>
            rw [hfr] at hrun
            exact Except.noConfusion hrun
          | ok hp3 =>
            rw [hfr] at hrun
            injection hrun with hrun
            simp only [Prod.mk.injEq] at hrun
            obtain ⟨-, rfl, rfl⟩ := hrun
            have h2 : Inv self1 (memcpy hp1 q ptr (hp1.hdr (get_block_ptr ptr)).size) rs1 :=
              h1.same_hdr rfl rfl rfl
            exact ⟨rs1, free_keeps_inv self1 self1 _ _ ptr rs1 h2 hfr⟩

theorem calloc_keeps_inv (fuel : Nat) (self self' : allocator) (hp hp' : Heap)
    (nmemb size p : Nat) (rs : List Nat) (h : Inv self hp rs)
    (hsmall : nmemb * size + META_SIZE < 2 ^ 63)
    (hrun : self.calloc fuel hp nmemb size = .ok (p, self', hp')) :
    ∃ rs', Inv self' hp' rs' := by
  unfold calloc at hrun
  by_cases hg : calloc_guard nmemb size = true
  · rw [if_pos hg] at hrun
    injection hrun with hrun
    simp only [Prod.mk.injEq] at hrun
    obtain ⟨-, rfl, rfl⟩ := hrun
    exact ⟨rs, h⟩
  · rw [if_neg hg] at hrun
    have hmod : (nmemb * size) % 2 ^ 64 = nmemb * size := Nat.mod_eq_of_lt (by omega)
    rw [hmod] at hrun
    cases hm : self.malloc fuel hp (nmemb * size) with
    | error e =>
      rw [hm] at hrun
      exact Except.noConfusion hrun
    | ok x =>
      obtain ⟨q, self1, hp1⟩ := x
      obtain ⟨rs1, h1⟩ := malloc_keeps_inv fuel self self1 hp hp1 _ q rs h hsmall hm
      rw [hm] at hrun
      simp only at hrun
      by_cases hq : q ≠ 0
      · rw [if_pos hq] at hrun
        injection hrun with hrun
        simp only [Prod.mk.injEq] at hrun
        obtain ⟨-, rfl, rfl⟩ := hrun
        exact ⟨rs1, h1.same_hdr rfl rfl rfl⟩
      · rw [if_neg hq] at hrun
        injection hrun with hrun
        simp only [Prod.mk.injEq] at hrun
        obtain ⟨-, rfl, rfl⟩ := hrun
        exact ⟨rs1, h1⟩

theorem call_keeps_inv (fuel : Nat) (self self' : allocator) (hp hp' : Heap) (c : Call)
    (p : Nat) (rs : List Nat) (h : Inv self hp rs) (hsmall : c.small)
    (hrun : c.run fuel self hp = .ok (p, self', hp')) :
    ∃ rs', Inv self' hp' rs' := by
  cases c with
  | malloc size => exact malloc_keeps_inv fuel self self' hp hp' size p rs h hsmall hrun
  | free ptr =>
    simp only [Call.run] at hrun
    cases hfr : self.free hp ptr with
    | error e =>
      rw [hfr] at hrun
      exact Except.noConfusion hrun
    | ok hp1 =>
      rw [hfr] at hrun
      injection hrun with hrun
      simp only [Prod.mk.injEq] at hrun
      obtain ⟨-, rfl, rfl⟩ := hrun
      exact ⟨rs, free_keeps_inv self self hp _ ptr rs h hfr⟩
  | realloc ptr size =>
    exact realloc_keeps_inv fuel self self' hp hp' ptr size p rs h hsmall hrun
  | calloc nmemb size =>
    exact calloc_keeps_inv fuel self self' hp hp' nmemb size p rs h hsmall hrun

theorem run_calls_keeps_inv (fuel : Nat) :
    ∀ (calls : List Call) (self self' : allocator) (hp hp' : Heap) (rs : List Nat),
      Inv self hp rs → (∀ c ∈ calls, c.small) →
      run_calls fuel self hp calls = .ok (self', hp') → ∃ rs', Inv self' hp' rs'
  | [], self, self', hp, hp', rs, h, _, hrun => by
    unfold run_calls at hrun
    injection hrun with hrun
    simp only [Prod.mk.injEq] at hrun
    obtain ⟨rfl, rfl⟩ := hrun
    exact ⟨rs, h⟩
  | c :: cs, self, self', hp, hp', rs, h, hsmall, hrun => by
    unfold run_calls at hrun
    cases hc : c.run fuel self hp with
    | error e =>
      rw [hc] at hrun
      exact Except.noConfusion hrun
    | ok x =>
      obtain ⟨p, self1, hp1⟩ := x
      rw [hc] at hrun
      obtain ⟨rs1, h1⟩ := call_keeps_inv fuel self self1 hp hp1 c p rs h
        (hsmall c (List.mem_cons_self _ _)) hc
      exact run_calls_keeps_inv fuel cs self1 self' hp1 hp' rs1 h1
        (fun d hd => hsmall d (List.mem_cons_of_mem _ hd)) hrun

/-- Disjointness without overflow: along any sequence of calls whose requests stay below the
overflow bound, started on a fresh allocator over a heap with a non-null break, every state
the sequence reaches has a null-terminated block list whose blocks lie below the break and
are pairwise disjoint. -/
theorem small_calls_keep_blocks_disjoint (fuel : Nat) (hp0 : Heap) (calls : List Call)
    (self : allocator) (hp : Heap)
    (hstart : 0 < hp0.start_brk) (hfresh : hp0.brk = hp0.start_brk)
    (hsmall : ∀ c ∈ calls, c.small)
    (hrun : run_calls fuel allocator.new hp0 calls = .ok (self, hp)) :
    ∃ rs, Records hp.hdr self.head rs
      ∧ rs.Pairwise (fun r s => ¬ blocks_overlap hp.hdr r s)
      ∧ ∀ r ∈ rs, r + META_SIZE + (hp.hdr r).size ≤ hp.brk := by
  have h0 : Inv allocator.new hp0 [] :=
    ⟨rfl, trivial, hstart, by omega, fun r hr => absurd hr (List.not_mem_nil _)⟩
  obtain ⟨rs, h⟩ := run_calls_keeps_inv fuel calls allocator.new self hp0 hp [] h0 hsmall hrun
  exact ⟨rs, h.1, Carved.pairwise rs _ h.2.1, Carved.end_le rs _ h.2.1⟩

theorem Records.unique (hdr : Nat → block_meta) :
    ∀ (rs rs' : List Nat) (cur : Nat), Records hdr cur rs → Records hdr cur rs' → rs = rs'
  | [], [], _, _, _ => rfl
  | [], _ :: _, _, h, h' => absurd h h'.1
  | _ :: _, [], _, h, h' => absurd h' h.1
  | r :: rs, r' :: rs', cur, h, h' => by
    obtain ⟨-, h1, h2⟩ := h
    obtain ⟨-, h1', h2'⟩ := h'
    have : r = r' := by rw [← h1, ← h1']
    subst this
    rw [Records.unique hdr rs rs' _ h2 h2']

theorem Own.frame {self : allocator} {hp hp' : Heap} {rs live : List Nat}
    (h : Own self hp rs live) (hh : hp'.hdr = hp.hdr) (hb : hp'.brk = hp.brk)
    (hs : hp'.start_brk = hp.start_brk) : Own self hp' rs live := by
  refine ⟨h.1.same_hdr hh hb hs, h.2.1, ?_⟩
  rw [hh]
  exact h.2.2

theorem Own.zero_not_live {self : allocator} {hp : Heap} {rs live : List Nat}
    (h : Own self hp rs live) : 0 ∉ live := by
  intro h0
  obtain ⟨r, -, -, hr⟩ := (h.2.2 0).1 h0
  unfold META_SIZE at hr
  omega

theorem malloc_own (fuel : Nat) (self : allocator) (hp : Heap) (size : Nat)
    (rs live : List Nat) (h : Own self hp rs live) (hsmall : size + META_SIZE < 2 ^ 63)
    (hfuel : rs.length ≤ fuel) :
    ∃ (q : Nat) (self' : allocator) (hp' : Heap) (rs' : List Nat),
      self.malloc fuel hp size = .ok (q, self', hp')
      ∧ Own self' hp' rs' (if q = 0 then live else q :: live)
      ∧ (q = 0 ∨ q ∉ live) ∧ rs'.length ≤ rs.length + 1 := by
  obtain ⟨hinv, hnd, hiff⟩ := h
  rcases Nat.eq_zero_or_pos size with h0 | hpos
  · subst h0
    exact ⟨0, self, hp, rs, malloc_zero fuel self hp, by rw [if_pos rfl]; exact ⟨hinv, hnd, hiff⟩,
      Or.inl rfl, by omega⟩
  · rcases first_fit_split (fits hp.hdr size) rs with hnone | ⟨pre, t, post, hsplit, hpre, hfit⟩
    · by_cases hgrow : (sbrk hp (to_intptr ((size + META_SIZE) % 2 ^ 64))).1 = none
      · refine ⟨0, self, _, rs, malloc_miss_fail fuel self hp size rs hinv.1 hpos hnone hfuel
          hgrow, ?_, Or.inl rfl, by omega⟩
        rw [if_pos rfl]
        exact Own.frame ⟨hinv, hnd, hiff⟩ rfl rfl rfl
      · have hroom : hp.brk + (size + META_SIZE) ≤ hp.rlimit := by
          by_contra hc
          apply hgrow
          rw [to_intptr_small _ hsmall]
          unfold sbrk
          rw [if_neg (by omega)]
        have hm := malloc_miss_room fuel self hp size rs hinv.1 hpos hnone hfuel hinv.brk_pos
          hsmall hinv.2.2.2.1 hroom
        obtain ⟨rs', hinv'⟩ := malloc_keeps_inv fuel self _ hp _ size _ rs hinv hsmall hm
        have hq0 : hp.brk + META_SIZE ≠ 0 := by unfold META_SIZE; omega
        have hfresh : hp.brk + META_SIZE ∉ live := by
          intro hin
          obtain ⟨r, hr, -, heq⟩ := (hiff _).1 hin
          have := hinv.below r hr
          omega
        have hrec' : Records
            ((Heap.mk hp.start_brk (hp.brk + (size + META_SIZE)) hp.rlimit hp.hdr hp.mem
              (hp.sbrk_calls + 1)).set_hdr hp.brk
              { size := size, free := false, next := self.head }).hdr hp.brk (hp.brk :: rs) :=
          @Records.push
            ⟨hp.start_brk, hp.brk + (size + META_SIZE), hp.rlimit, hp.hdr, hp.mem,
              hp.sbrk_calls + 1⟩
            self.head rs hp.brk _ hinv.1 (Nat.ne_of_gt hinv.brk_pos)
            (fun x hx => Nat.ne_of_lt (hinv.below x hx)) rfl
        have hrs' : rs' = hp.brk :: rs := Records.unique _ _ _ _ hinv'.1 hrec'
        subst hrs'
        refine ⟨_, _, _, _, hm, ⟨hinv', ?_, ?_⟩, Or.inr hfresh, by simp⟩
        · rw [if_neg hq0]
          exact List.nodup_cons.2 ⟨hfresh, hnd⟩
        · intro p
          rw [if_neg hq0, List.mem_cons, hiff p]
          constructor
          · rintro (rfl | ⟨r, hr, hfr, rfl⟩)
            · exact ⟨hp.brk, List.mem_cons_self _ _, by rw [set_hdr_same], rfl⟩
            · refine ⟨r, List.mem_cons_of_mem _ hr, ?_, rfl⟩
              rw [set_hdr_other _ _ _ r (Nat.ne_of_lt (hinv.below r hr))]
              exact hfr
          · rintro ⟨r, hr, hfr, rfl⟩
            rcases List.mem_cons.1 hr with rfl | hr
            · exact Or.inl rfl
            · right
              refine ⟨r, hr, ?_, rfl⟩
              rw [set_hdr_other _ _ _ r (Nat.ne_of_lt (hinv.below r hr))] at hfr
              exact hfr
    · have hm := malloc_hit fuel self hp size pre post t (hsplit ▸ hinv.1) hpos hpre hfit
        (hsplit ▸ hfuel)
      have ht : t ∈ rs := by rw [hsplit]; simp
      have hq0 : t + META_SIZE ≠ 0 := by unfold META_SIZE; omega
      have hfresh : t + META_SIZE ∉ live := by
        intro hin
        obtain ⟨r, -, hfr, heq⟩ := (hiff _).1 hin
        have : r = t := by omega
        subst this
        rw [hfit.1] at hfr
        exact Bool.noConfusion hfr
      refine ⟨_, _, _, rs, hm, ⟨hinv.flag_update t false, ?_, ?_⟩, Or.inr hfresh, by omega⟩
      · rw [if_neg hq0]
        exact List.nodup_cons.2 ⟨hfresh, hnd⟩
      · intro p
        rw [if_neg hq0, List.mem_cons, hiff p]
        constructor
        · rintro (rfl | ⟨r, hr, hfr, rfl⟩)
          · exact ⟨t, ht, by rw [set_hdr_same], rfl⟩
          · refine ⟨r, hr, ?_, rfl⟩
            by_cases hrt : r = t
            · subst hrt; rw [set_hdr_same]
            · rw [set_hdr_other _ _ _ r hrt]; exact hfr
        · rintro ⟨r, hr, hfr, rfl⟩
          by_cases hrt : r = t
          · subst hrt; exact Or.inl rfl
          · right
            refine ⟨r, hr, ?_, rfl⟩
            rw [set_hdr_other _ _ _ r hrt] at hfr
            exact hfr

theorem free_own (self a : allocator) (hp : Heap) (p : Nat) (rs live : List Nat)
    (h : Own self hp rs live) (hp_live : p ∈ live) :
    ∃ hp' : Heap, a.free hp p = .ok hp' ∧ Own self hp' rs (live.erase p) := by
  obtain ⟨hinv, hnd, hiff⟩ := h
  obtain ⟨r, hr, hfr, rfl⟩ := (hiff p).1 hp_live
  have hp0 : r + META_SIZE ≠ 0 := by unfold META_SIZE; omega
  refine ⟨hp.set_hdr r { hp.hdr r with free := true }, ?_, hinv.flag_update r true,
    hnd.erase _, ?_⟩
  · unfold free
    rw [if_neg hp0, get_block_ptr_data, if_pos hfr]
  · intro q
    rw [hnd.mem_erase_iff, hiff q]
    constructor
    · rintro ⟨hne, s, hs, hfs, rfl⟩
      have hsr : s ≠ r := fun e => hne (by rw [e])
      exact ⟨s, hs, by rw [set_hdr_other _ _ _ s hsr]; exact hfs, rfl⟩
    · rintro ⟨s, hs, hfs, rfl⟩
      have hsr : s ≠ r := by
        rintro rfl
        rw [set_hdr_same] at hfs
        exact Bool.noConfusion hfs
      rw [set_hdr_other _ _ _ s hsr] at hfs
      exact ⟨fun e => hsr (by omega), s, hs, hfs, rfl⟩

theorem realloc_own (fuel : Nat) (self : allocator) (hp : Heap) (p size : Nat)
    (rs live : List Nat) (h : Own self hp rs live) (hsmall : size + META_SIZE < 2 ^ 63)
    (hallowed : p = 0 ∨ p ∈ live) (hfuel : rs.length ≤ fuel) :
    ∃ (q : Nat) (self' : allocator) (hp' : Heap) (rs' : List Nat),
      self.realloc fuel hp p size = .ok (q, self', hp')
      ∧ Own self' hp' rs' (if q = 0 then live else if q = p then live else q :: live.erase p)
      ∧ (q = 0 ∨ q = p ∨ q ∉ live) ∧ rs'.length ≤ rs.length + 1 := by
  obtain ⟨q, self1, hp1, rs1, hm, hown1, hq, hlen⟩ :=
    malloc_own fuel self hp size rs live h hsmall hfuel
  by_cases h0 : p = 0
  · subst h0
    refine ⟨q, self1, hp1, rs1, by unfold realloc; rw [if_pos rfl]; exact hm, ?_,
      hq.elim Or.inl (fun x => Or.inr (Or.inr x)), hlen⟩
    by_cases hq0 : q = 0
    · rw [if_pos hq0] at hown1 ⊢
      exact hown1
    · rw [if_neg hq0] at hown1 ⊢
      rw [if_neg hq0, List.erase_of_not_mem h.zero_not_live]
      exact hown1
  · have hlive : p ∈ live := hallowed.resolve_left h0
    by_cases hle : size ≤ (hp.hdr (get_block_ptr p)).size
    · refine ⟨p, self, hp, rs, by unfold realloc; rw [if_neg h0, if_pos hle], ?_,
        Or.inr (Or.inl rfl), by omega⟩
      rw [if_neg h0, if_pos rfl]
      exact h
    · by_cases hq0 : q = 0
      · subst hq0
        refine ⟨0, self1, hp1, rs1, ?_, by rw [if_pos rfl] at hown1 ⊢; exact hown1,
          Or.inl rfl, hlen⟩
        unfold realloc
        rw [if_neg h0, if_neg hle, hm]
        simp
      · rw [if_neg hq0] at hown1
        have hqp : q ≠ p := by
          rintro rfl
          exact (hq.resolve_left hq0) hlive
        have hown2 : Own self1 (memcpy hp1 q p (hp1.hdr (get_block_ptr p)).size) rs1
            (q :: live) := hown1.frame rfl rfl rfl
        obtain ⟨hp3, hfree, hown3⟩ := free_own self1 self1 _ p rs1 (q :: live) hown2
          (List.mem_cons_of_mem _ hlive)
        refine ⟨q, self1, hp3, rs1, ?_, ?_, Or.inr (Or.inr (hq.resolve_left hq0)), hlen⟩
        · unfold realloc
          rw [if_neg h0, if_neg hle, hm]
          simp only [if_neg hq0, hfree]
        · rw [if_neg hq0, if_neg hqp]
          rw [List.erase_cons_tail (by simpa using hqp)] at hown3
          exact hown3

theorem calloc_own (fuel : Nat) (self : allocator) (hp : Heap) (nmemb size : Nat)
    (rs live : List Nat) (h : Own self hp rs live)
    (hsmall : nmemb * size + META_SIZE < 2 ^ 63) (hfuel : rs.length ≤ fuel) :
    ∃ (q : Nat) (self' : allocator) (hp' : Heap) (rs' : List Nat),
      self.calloc fuel hp nmemb size = .ok (q, self', hp')
      ∧ Own self' hp' rs' (if q = 0 then live else q :: live)
      ∧ (q = 0 ∨ q ∉ live) ∧ rs'.length ≤ rs.length + 1 := by
  by_cases hg : calloc_guard nmemb size = true
  · refine ⟨0, self, hp, rs, by unfold calloc; rw [if_pos hg], ?_, Or.inl rfl, by omega⟩
    rw [if_pos rfl]
    exact h
  · have hmod : (nmemb * size) % 2 ^ 64 = nmemb * size := Nat.mod_eq_of_lt (by omega)
    obtain ⟨q, self1, hp1, rs1, hm, hown1, hq, hlen⟩ :=
      malloc_own fuel self hp (nmemb * size) rs live h hsmall hfuel
    by_cases hq0 : q = 0
    · refine ⟨q, self1, hp1, rs1, ?_, hown1, hq, hlen⟩
      unfold calloc
      rw [if_neg hg, hmod, hm]
      simp [hq0]
    · refine ⟨q, self1, memset hp1 q 0 (nmemb * size), rs1, ?_,
        hown1.frame rfl rfl rfl, hq, hlen⟩
      unfold calloc
      rw [if_neg hg, hmod, hm]
      simp [hq0]

theorem call_own (fuel : Nat) (self : allocator) (hp : Heap) (c : Call)
    (rs live : List Nat) (h : Own self hp rs live) (hsmall : c.small)
    (hallowed : c.allowed live) (hfuel : rs.length ≤ fuel) :
    ∃ (q : Nat) (self' : allocator) (hp' : Heap) (rs' : List Nat),
      c.run fuel self hp = .ok (q, self', hp')
      ∧ Own self' hp' rs' (live_after live c q)
      ∧ c.result_fresh live q ∧ rs'.length ≤ rs.length + 1 := by
  cases c with
  | malloc size => exact malloc_own fuel self hp size rs live h hsmall hfuel
  | free p =>
    by_cases h0 : p = 0
    · subst h0
      refine ⟨0, self, hp, rs, ?_, ?_, trivial, by omega⟩
      · simp [Call.run, free]
      · simp only [live_after]
        rw [List.erase_of_not_mem h.zero_not_live]
        exact h
    · obtain ⟨hp', hfree, hown⟩ := free_own self self hp p rs live h
        (hallowed.resolve_left h0)
      refine ⟨0, self, hp', rs, ?_, hown, trivial, by omega⟩
      simp only [Call.run, hfree]
  | realloc p size => exact realloc_own fuel self hp p size rs live h hsmall hallowed hfuel
  | calloc nmemb size => exact calloc_own fuel self hp nmemb size rs live h hsmall hfuel

theorem well_behaved_all_fresh (fuel : Nat) :
    ∀ (calls : List Call) (self : allocator) (hp : Heap) (rs live : List Nat),
      Own self hp rs live → WellBehaved fuel self hp live calls →
      rs.length + calls.length ≤ fuel → AllFresh fuel self hp live calls
  | [], _, _, _, _, _, _, _ => trivial
  | c :: cs, self, hp, rs, live, h, hwb, hfuel => by
    obtain ⟨hallowed, hsmall, hrest⟩ := hwb
    obtain ⟨q, self1, hp1, rs1, hrun, hown, hfresh, hlen⟩ :=
      call_own fuel self hp c rs live h hsmall hallowed
        (by simp at hfuel; omega)
    unfold AllFresh
    rw [hrun] at hrest ⊢
    exact ⟨hfresh, well_behaved_all_fresh fuel cs self1 hp1 rs1 _ hown hrest
      (by simp at hfuel; omega)⟩

/-- Exclusive ownership without overflow: started on a fresh allocator over a heap with a
non-null break and given fuel for as many blocks as there are calls, every call of a
sequence that obeys the caller's contract and stays below the overflow bound returns (no
failed assertion in `free`, no divergence), and no call returns a pointer the caller holds
at that moment. -/
theorem small_calls_keep_ownership (fuel : Nat) (hp0 : Heap) (calls : List Call)
    (hstart : 0 < hp0.start_brk) (hfresh : hp0.brk = hp0.start_brk)
    (hwb : WellBehaved fuel allocator.new hp0 [] calls)
    (hfuel : calls.length ≤ fuel) :
    AllFresh fuel allocator.new hp0 [] calls := by
  have h0 : Own allocator.new hp0 [] [] :=
    ⟨⟨rfl, trivial, hstart, by omega, fun r hr => absurd hr (List.not_mem_nil _)⟩,
      List.nodup_nil, fun p => by simp⟩
  exact well_behaved_all_fresh fuel calls allocator.new hp0 [] [] h0 hwb (by simpa using hfuel)

/-- Exact growth without overflow: when `size + META_SIZE` stays below `2 ^ 63`, a miss with
`sbrk` success moves the break up by exactly `size + META_SIZE`, and the header and the
`size` payload bytes of the new block fill exactly the range between the old and the new
break. -/
theorem small_miss_grows_exactly (fuel : Nat) (self : allocator) (hp : Heap) (size : Nat)
    (rs : List Nat)
    (hrec : Records hp.hdr self.head rs)
    (hsize : 0 < size)
    (hnone : ∀ x ∈ rs, ¬ fits hp.hdr size x)
    (hfuel : rs.length ≤ fuel)
    (hbrk : 0 < hp.brk) (hstart : hp.start_brk ≤ hp.brk)
    (hsmall : size + META_SIZE < 2 ^ 63)
    (hgrow : (sbrk hp (to_intptr ((size + META_SIZE) % 2 ^ 64))).1 ≠ none) :
    ∃ hp' : Heap, self.malloc fuel hp size = .ok (hp.brk + META_SIZE, { head := hp.brk }, hp')
      ∧ hp'.brk = hp.brk + (size + META_SIZE)
      ∧ hp.brk + META_SIZE + size = hp'.brk
      ∧ hp'.sbrk_calls = hp.sbrk_calls + 1 := by
  have hroom : hp.brk + (size + META_SIZE) ≤ hp.rlimit := by
    by_contra hc
    apply hgrow
    rw [to_intptr_small _ hsmall]
    unfold sbrk
    rw [if_neg (by omega)]
  refine ⟨_, malloc_miss_room fuel self hp size rs hrec hsize hnone hfuel hbrk hsmall hstart
    hroom, rfl, ?_, rfl⟩
  show hp.brk + META_SIZE + size = hp.brk + (size + META_SIZE)
  omega

theorem malloc_effect (fuel : Nat) (self : allocator) (hp : Heap) (size : Nat) (rs : List Nat)
    (hrec : Records hp.hdr self.head rs)
    (hbrk : 0 < hp.brk)
    (hbelow : ∀ x ∈ rs, x < hp.brk)
    (hfuel : rs.length ≤ fuel) :
    ∃ (q : Nat) (self' : allocator) (hp' : Heap),
      self.malloc fuel hp size = .ok (q, self', hp')
      ∧ ((self' = self ∧ Records hp'.hdr self'.head rs)
          ∨ (self' = ⟨hp.brk⟩ ∧ Records hp'.hdr self'.head (hp.brk :: rs)))
      ∧ (∀ x, x ≠ hp.brk →
          (hp'.hdr x).size = (hp.hdr x).size ∧ (hp'.hdr x).next = (hp.hdr x).next)
      ∧ (∀ x, x ≠ hp.brk → (x ∉ rs ∨ (hp.hdr x).free = false) → hp'.hdr x = hp.hdr x)
      ∧ (q = 0 ∨ q = hp.brk + META_SIZE ∨ ∃ r ∈ rs, (hp.hdr r).free = true ∧ q = r + META_SIZE)
      ∧ hp'.mem = hp.mem := by
  rcases Nat.eq_zero_or_pos size with h0 | hpos
  · subst h0
    exact ⟨0, self, hp, malloc_zero fuel self hp, Or.inl ⟨rfl, hrec⟩, fun _ _ => ⟨rfl, rfl⟩,
      fun _ _ _ => rfl, Or.inl rfl, rfl⟩
  · rcases first_fit_split (fits hp.hdr size) rs with hnone | ⟨pre, t, post, hsplit, hpre, hfit⟩
    · by_cases hgrow : (sbrk hp (to_intptr ((size + META_SIZE) % 2 ^ 64))).1 = none
      · exact ⟨0, self, _, malloc_miss_fail fuel self hp size rs hrec hpos hnone hfuel hgrow,
          Or.inl ⟨rfl, hrec⟩, fun _ _ => ⟨rfl, rfl⟩, fun _ _ _ => rfl, Or.inl rfl, rfl⟩
      · refine ⟨_, _, _, malloc_miss_ok fuel self hp size rs hrec hpos hnone hfuel hbrk hgrow,
          Or.inr ⟨rfl, ?_⟩, ?_, ?_, Or.inr (Or.inl rfl), rfl⟩
        · exact @Records.push
            ⟨hp.start_brk, ((hp.brk : Int) + to_intptr ((size + META_SIZE) % 2 ^ 64)).toNat,
              hp.rlimit, hp.hdr, hp.mem, hp.sbrk_calls + 1⟩
            self.head rs hp.brk _ hrec (Nat.ne_of_gt hbrk)
            (fun x hx => Nat.ne_of_lt (hbelow x hx)) rfl
        · intro x hx
          rw [set_hdr_other _ _ _ x hx]
          exact ⟨rfl, rfl⟩
        · intro x hx _
          rw [set_hdr_other _ _ _ x hx]
    · subst hsplit
      have ht : t ∈ pre ++ t :: post := by simp
      refine ⟨_, _, _, malloc_hit fuel self hp size pre post t hrec hpos hpre hfit hfuel,
        Or.inl ⟨rfl, Records.set_flag t false hrec⟩, fun x _ => set_hdr_fields hp t false x,
        ?_, Or.inr (Or.inr ⟨t, ht, hfit.1, rfl⟩), rfl⟩
      intro x _ hx
      have hxt : x ≠ t := by
        rintro rfl
        rcases hx with hx | hx
        · exact hx ht
        · rw [hfit.1] at hx
          exact Bool.noConfusion hx
      exact set_hdr_other hp t _ x hxt

theorem call_effect (fuel : Nat) (self : allocator) (hp : Heap) (c : Call) (rs : List Nat)
    (hrec : Records hp.hdr self.head rs)
    (hbrk : 0 < hp.brk)
    (hbelow : ∀ x ∈ rs, x < hp.brk)
    (howned : c.owned hp.hdr rs)
    (hfuel : rs.length ≤ fuel) :
    ∃ (q : Nat) (self' : allocator) (hp' : Heap),
      c.run fuel self hp = .ok (q, self', hp')
      ∧ ((self' = self ∧ Records hp'.hdr self'.head rs)
          ∨ (self' = ⟨hp.brk⟩ ∧ Records hp'.hdr self'.head (hp.brk :: rs)))
      ∧ (∀ x, x ≠ hp.brk →
          (hp'.hdr x).size = (hp.hdr x).size ∧ (hp'.hdr x).next = (hp.hdr x).next)
      ∧ (∀ x, x ≠ hp.brk → x ∉ rs → hp'.hdr x = hp.hdr x)
      ∧ (q = 0 ∨ q = hp.brk + META_SIZE ∨ ∃ r ∈ rs, q = r + META_SIZE) := by
  have hmalloc : ∀ size, ∃ (q : Nat) (self' : allocator) (hp' : Heap),
      self.malloc fuel hp size = .ok (q, self', hp')
      ∧ ((self' = self ∧ Records hp'.hdr self'.head rs)
          ∨ (self' = ⟨hp.brk⟩ ∧ Records hp'.hdr self'.head (hp.brk :: rs)))
      ∧ (∀ x, x ≠ hp.brk →
          (hp'.hdr x).size = (hp.hdr x).size ∧ (hp'.hdr x).next = (hp.hdr x).next)
      ∧ (∀ x, x ≠ hp.brk → x ∉ rs → hp'.hdr x = hp.hdr x)
      ∧ (q = 0 ∨ q = hp.brk + META_SIZE ∨ ∃ r ∈ rs, q = r + META_SIZE) := by
    intro size
    obtain ⟨q, self', hp', hm, hl, hf, ho, hq, -⟩ :=
      malloc_effect fuel self hp size rs hrec hbrk hbelow hfuel
    refine ⟨q, self', hp', hm, hl, hf, fun x hx hn => ho x hx (Or.inl hn), ?_⟩
    rcases hq with h | h | ⟨r, hr, -, h⟩
    · exact Or.inl h
    · exact Or.inr (Or.inl h)
    · exact Or.inr (Or.inr ⟨r, hr, h⟩)
  have hfree : ∀ (a : allocator) (h1 : Heap) (r : Nat), (h1.hdr r).free = false →
      a.free h1 (r + META_SIZE) = .ok (h1.set_hdr r { h1.hdr r with free := true }) := by
    intro a h1 r hfr
    unfold free
    have h0 : r + META_SIZE ≠ 0 := by unfold META_SIZE; omega
    rw [if_neg h0, get_block_ptr_data, if_pos hfr]
  cases c with
  | malloc size => exact hmalloc size
  | free p =>
    rcases howned with h0 | ⟨r, hr, hfr, rfl⟩
    · subst h0
      refine ⟨0, self, hp, ?_, Or.inl ⟨rfl, hrec⟩, fun _ _ => ⟨rfl, rfl⟩, fun _ _ _ => rfl,
        Or.inl rfl⟩
      simp [Call.run, free]
    · refine ⟨0, self, _, ?_, Or.inl ⟨rfl, Records.set_flag r true hrec⟩,
        fun x _ => set_hdr_fields hp r true x, ?_, Or.inl rfl⟩
      · simp only [Call.run, hfree self hp r hfr]
      · intro x _ hx
        exact set_hdr_other hp r _ x (fun e => hx (e ▸ hr))
  | calloc nmemb size =>
    by_cases hg : calloc_guard nmemb size = true
    · refine ⟨0, self, hp, ?_, Or.inl ⟨rfl, hrec⟩, fun _ _ => ⟨rfl, rfl⟩, fun _ _ _ => rfl,
        Or.inl rfl⟩
      simp only [Call.run]
      unfold calloc
      rw [if_pos hg]
    · obtain ⟨q, self', hp', hm, hl, hf, ho, hq⟩ := hmalloc ((nmemb * size) % 2 ^ 64)
      by_cases hq0 : q = 0
      · refine ⟨q, self', hp', ?_, hl, hf, ho, hq⟩
        simp only [Call.run]
        unfold calloc
        rw [if_neg hg, hm]
        simp [hq0]
      · refine ⟨q, self', memset hp' q 0 ((nmemb * size) % 2 ^ 64), ?_, hl, hf, ho, hq⟩
        simp only [Call.run]
        unfold calloc
        rw [if_neg hg, hm]
        simp [hq0]
  | realloc p size =>
    rcases howned with h0 | ⟨r, hr, hfr, rfl⟩
    · subst h0
      obtain ⟨q, self', hp', hm, hrest⟩ := hmalloc size
      refine ⟨q, self', hp', ?_, hrest⟩
      simp only [Call.run]
      unfold realloc
      rw [if_pos rfl]
      exact hm
    · have hp0 : r + META_SIZE ≠ 0 := by unfold META_SIZE; omega
      by_cases hle : size ≤ (hp.hdr r).size
      · refine ⟨r + META_SIZE, self, hp, ?_, Or.inl ⟨rfl, hrec⟩, fun _ _ => ⟨rfl, rfl⟩,
          fun _ _ _ => rfl, Or.inr (Or.inr ⟨r, hr, rfl⟩)⟩
        simp only [Call.run]
        unfold realloc
        rw [if_neg hp0, get_block_ptr_data, if_pos hle]
      · obtain ⟨q, self', hp', hm, hl, hf, ho, hq, -⟩ :=
          malloc_effect fuel self hp size rs hrec hbrk hbelow hfuel
        have hrb : r ≠ hp.brk := Nat.ne_of_lt (hbelow r hr)
        have hkeep : hp'.hdr r = hp.hdr r := ho r hrb (Or.inr hfr)
        have hq' : q = 0 ∨ q = hp.brk + META_SIZE ∨ ∃ t ∈ rs, q = t + META_SIZE := by
          rcases hq with h | h | ⟨t, ht, -, h⟩
          · exact Or.inl h
          · exact Or.inr (Or.inl h)
          · exact Or.inr (Or.inr ⟨t, ht, h⟩)
        by_cases hq0 : q = 0
        · refine ⟨0, self', hp', ?_, hl, hf, fun x hx hn => ho x hx (Or.inl hn), Or.inl rfl⟩
          simp only [Call.run]
          unfold realloc
          rw [if_neg hp0, get_block_ptr_data, if_neg hle, hm]
          simp [hq0]
        · have hfr' : ((memcpy hp' q (r + META_SIZE) (hp'.hdr r).size).hdr r).free = false := by
            show (hp'.hdr r).free = false
            rw [hkeep]
            exact hfr
          refine ⟨q, self', (memcpy hp' q (r + META_SIZE) (hp'.hdr r).size).set_hdr r
            { (memcpy hp' q (r + META_SIZE) (hp'.hdr r).size).hdr r with free := true },
            ?_, ?_, ?_, ?_, hq'⟩
          · simp only [Call.run]
            unfold realloc
            rw [if_neg hp0, get_block_ptr_data, if_neg hle, hm]
            simp only [if_neg hq0]
            rw [hfree self' _ r hfr']
          · rcases hl with ⟨e, h⟩ | ⟨e, h⟩
            · exact Or.inl ⟨e, @Records.set_flag
                (memcpy hp' q (r + META_SIZE) (hp'.hdr r).size) _ _ r true h⟩
            · exact Or.inr ⟨e, @Records.set_flag
                (memcpy hp' q (r + META_SIZE) (hp'.hdr r).size) _ _ r true h⟩
          · intro x hx
            have h1 := set_hdr_fields (memcpy hp' q (r + META_SIZE) (hp'.hdr r).size) r true x
            have h2 := hf x hx
            exact ⟨h1.1.trans h2.1, h1.2.trans h2.2⟩
          · intro x hx hn
            rw [set_hdr_other _ r _ x (fun e => hn (e ▸ hr))]
            exact ho x hx (Or.inl hn)

theorem malloc_brk_mono (fuel : Nat) (self self' : allocator) (hp hp' : Heap) (size q : Nat)
    (hsmall : size + META_SIZE < 2 ^ 63)
    (hrun : self.malloc fuel hp size = .ok (q, self', hp')) :
    hp.brk ≤ hp'.brk ∧ hp'.start_brk = hp.start_brk := by
  unfold malloc at hrun
  by_cases h0 : size = 0
  · rw [if_pos h0] at hrun
    injection hrun with hrun
    simp only [Prod.mk.injEq] at hrun
    obtain ⟨-, -, rfl⟩ := hrun
    exact ⟨Nat.le_refl _, rfl⟩
  · rw [if_neg h0] at hrun
    cases hl : malloc_loop hp.hdr size fuel self.head with
    | error e =>
      rw [hl] at hrun
      exact Except.noConfusion hrun
    | ok o =>
      rw [hl] at hrun
      cases o with
      | some cur =>
        injection hrun with hrun
        simp only [Prod.mk.injEq] at hrun
        obtain ⟨-, -, rfl⟩ := hrun
        exact ⟨Nat.le_refl _, rfl⟩
      | none =>
        simp only at hrun
        by_cases hgrow : (sbrk hp (to_intptr ((size + META_SIZE) % 2 ^ 64))).1 = none
        · rw [request_space_fail hp size hgrow] at hrun
          simp only [if_true] at hrun
          injection hrun with hrun
          simp only [Prod.mk.injEq] at hrun
          obtain ⟨-, -, rfl⟩ := hrun
          exact ⟨Nat.le_refl _, rfl⟩
        · rw [request_space_ok hp size hgrow, to_intptr_small _ hsmall] at hrun
          have hb : ((hp.brk : Int) + ((size + META_SIZE : Nat) : Int)).toNat
              = hp.brk + (size + META_SIZE) := by omega
          rw [hb] at hrun
          by_cases hb0 : hp.brk = 0
          · simp only [if_pos hb0] at hrun
            injection hrun with hrun
            simp only [Prod.mk.injEq] at hrun
            obtain ⟨-, -, rfl⟩ := hrun
            exact ⟨Nat.le_add_right _ _, rfl⟩
          · simp only [if_neg hb0] at hrun
            injection hrun with hrun
            simp only [Prod.mk.injEq] at hrun
            obtain ⟨-, -, rfl⟩ := hrun
            exact ⟨Nat.le_add_right _ _, rfl⟩

theorem free_brk_same (a : allocator) (hp hp' : Heap) (p : Nat)
    (hrun : a.free hp p = .ok hp') : hp'.brk = hp.brk ∧ hp'.start_brk = hp.start_brk := by
  unfold free at hrun
  by_cases h0 : p = 0
  · rw [if_pos h0] at hrun
    injection hrun with hrun
    rw [← hrun]
    exact ⟨rfl, rfl⟩
  · rw [if_neg h0] at hrun
    by_cases hf : (hp.hdr (get_block_ptr p)).free = false
    · rw [if_pos hf] at hrun
      injection hrun with hrun
      rw [← hrun]
      exact ⟨rfl, rfl⟩
    · rw [if_neg hf] at hrun
      exact Except.noConfusion hrun

theorem call_brk_mono (fuel : Nat) (self self' : allocator) (hp hp' : Heap) (c : Call)
    (q : Nat) (hsmall : c.small)
    (hrun : c.run fuel self hp = .ok (q, self', hp')) :
    hp.brk ≤ hp'.brk ∧ hp'.start_brk = hp.start_brk := by
  cases c with
  | malloc size => exact malloc_brk_mono fuel self self' hp hp' size q hsmall hrun
  | free p =>
    simp only [Call.run] at hrun
    cases hfr : self.free hp p with
    | error e =>
      rw [hfr] at hrun
      exact Except.noConfusion hrun
    | ok hp1 =>
      rw [hfr] at hrun
      injection hrun with hrun
      simp only [Prod.mk.injEq] at hrun
      obtain ⟨-, -, rfl⟩ := hrun
      have := free_brk_same self hp hp1 p hfr
      exact ⟨Nat.le_of_eq this.1.symm, this.2⟩
  | realloc p size =>
    simp only [Call.run] at hrun
    unfold realloc at hrun
    by_cases h0 : p = 0
    · rw [if_pos h0] at hrun
      exact malloc_brk_mono fuel self self' hp hp' size q hsmall hrun
    · rw [if_neg h0] at hrun
      by_cases hle : size ≤ (hp.hdr (get_block_ptr p)).size
      · rw [if_pos hle] at hrun
        injection hrun with hrun
        simp only [Prod.mk.injEq] at hrun
        obtain ⟨-, -, rfl⟩ := hrun
        exact ⟨Nat.le_refl _, rfl⟩
      · rw [if_neg hle] at hrun
        cases hm : self.malloc fuel hp size with
        | error e =>
          rw [hm] at hrun
          exact Except.noConfusion hrun
        | ok x =>
          obtain ⟨q1, self1, hp1⟩ := x
          have hmono := malloc_brk_mono fuel self self1 hp hp1 size q1 hsmall hm
          rw [hm] at hrun
          simp only at hrun
          by_cases hq : q1 = 0
          · rw [if_pos hq] at hrun
            injection hrun with hrun
            simp only [Prod.mk.injEq] at hrun
            obtain ⟨-, -, rfl⟩ := hrun
            exact hmono
          · rw [if_neg hq] at hrun
            cases hfr : self1.free (memcpy hp1 q1 p (hp1.hdr (get_block_ptr p)).size) p with
            | error e =>
              rw [hfr] at hrun
              exact Except.noConfusion hrun
            | ok hp3 =>
              rw [hfr] at hrun
              injection hrun with hrun
              simp only [Prod.mk.injEq] at hrun
              obtain ⟨-, -, rfl⟩ := hrun
              have := free_brk_same self1 _ hp3 p hfr
              have hb : hp3.brk = hp1.brk := this.1
              have hs : hp3.start_brk = hp1.start_brk := this.2
              exact ⟨by rw [hb]; exact hmono.1, by rw [hs]; exact hmono.2⟩
  | calloc nmemb size =>
    simp only [Call.run] at hrun
    unfold calloc at hrun
    by_cases hg : calloc_guard nmemb size = true
    · rw [if_pos hg] at hrun
      injection hrun with hrun
      simp only [Prod.mk.injEq] at hrun
      obtain ⟨-, -, rfl⟩ := hrun
      exact ⟨Nat.le_refl _, rfl⟩
    · rw [if_neg hg] at hrun
      have hsm : nmemb * size + META_SIZE < 2 ^ 63 := hsmall
      have hmod : (nmemb * size) % 2 ^ 64 = nmemb * size := Nat.mod_eq_of_lt (by omega)
      rw [hmod] at hrun
      cases hm : self.malloc fuel hp (nmemb * size) with
      | error e =>
        rw [hm] at hrun
        exact Except.noConfusion hrun
      | ok x =>
        obtain ⟨q1, self1, hp1⟩ := x
        have hmono := malloc_brk_mono fuel self self1 hp hp1 _ q1 hsm hm
        rw [hm] at hrun
        simp only at hrun
        by_cases hq : q1 ≠ 0
        · rw [if_pos hq] at hrun
          injection hrun with hrun
          simp only [Prod.mk.injEq] at hrun
          obtain ⟨-, -, rfl⟩ := hrun
          exact hmono
        · rw [if_neg hq] at hrun
          injection hrun with hrun
          simp only [Prod.mk.injEq] at hrun
          obtain ⟨-, -, rfl⟩ := hrun
          exact hmono

/-- Isolation is kept without overflow: from a joint state of two allocators, a call on the
first that stays below the overflow bound and passes null or one of its own in-use blocks
returns and leads to a joint state again, the list of the second being the same. -/
theorem small_call_keeps_joint (fuel : Nat) (a1 a2 : allocator) (hp : Heap) (c : Call)
    (rs1 rs2 : List Nat) (hj : Joint a1 a2 hp rs1 rs2) (hsmall : c.small)
    (howned : c.owned hp.hdr rs1) (hfuel : rs1.length ≤ fuel) :
    ∃ (q : Nat) (a1' : allocator) (hp' : Heap) (rs1' : List Nat),
      c.run fuel a1 hp = .ok (q, a1', hp') ∧ Joint a1' a2 hp' rs1' rs2 := by
  obtain ⟨h1, h2, hdisj⟩ := hj
  obtain ⟨q, a1', hp', hrun, hl, -, ho, -⟩ :=
    call_effect fuel a1 hp c rs1 h1.1 h1.brk_pos h1.below howned hfuel
  obtain ⟨rs1', h1'⟩ := call_keeps_inv fuel a1 a1' hp hp' c q rs1 h1 hsmall hrun
  obtain ⟨hmono, hstart⟩ := call_brk_mono fuel a1 a1' hp hp' c q hsmall hrun
  have hkeep : ∀ x ∈ rs2, hp'.hdr x = hp.hdr x := fun x hx =>
    ho x (Nat.ne_of_lt (h2.below x hx)) (fun hx1 => hdisj x hx1 hx)
  refine ⟨q, a1', hp', rs1', hrun, h1', ?_, ?_⟩
  · refine ⟨Records.congr_off rs2 _ hkeep h2.1, ?_, ?_, ?_, ?_⟩
    · exact Carved.mono rs2 _ _ hmono
        (Carved.congr_size rs2 _ (fun x hx => by rw [hkeep x hx]) h2.2.1)
    · rw [hstart]; exact h2.2.2.1
    · rw [hstart]; exact Nat.le_trans h2.2.2.2.1 hmono
    · rw [hstart]; exact h2.2.2.2.2
  · rcases hl with ⟨-, h⟩ | ⟨-, h⟩
    · rw [Records.unique _ _ _ _ h1'.1 h]
      exact hdisj
    · rw [Records.unique _ _ _ _ h1'.1 h]
      intro x hx hx2
      rcases List.mem_cons.1 hx with rfl | hx
      · exact Nat.lt_irrefl _ (h2.below _ hx2)
      · exact hdisj x hx hx2

theorem Records.not_of_self_loop (hdr : Nat → block_meta) (c : Nat) (hc : c ≠ 0)
    (hself : (hdr c).next = c) : ∀ rs : List Nat, ¬ Records hdr c rs
  | [], h => hc h
  | r :: rs, h => by
    obtain ⟨-, h1, h2⟩ := h
    subst h1
    rw [hself] at h2
    exact Records.not_of_self_loop hdr c hc hself rs h2

/-! ## The operations on disjoint blocks -/

/-- First-fit reuse on disjoint blocks.  When the block list from `head` is
`pre ++ r :: post`, no block of `pre` is free and large enough and `r` is, `malloc(size)`
with `size > 0` returns the data address `r + META_SIZE` of `r`, whatever the blocks of
`post` are; the flag of `r` becomes in-use, `sbrk` is not called and the break stays, the
block list is the same list, every size and `next` field is unchanged, every other header is
unchanged and no payload byte is written.  The frame part is a statement of the typed
stores: it describes the machine while the header of `r` lies in no other block, as under
`Inv`. -/
theorem malloc_first_fit_reuse (fuel : Nat) (self : allocator) (hp : Heap) (size : Nat)
    (pre post : List Nat) (r : Nat)
    (hrec : Records hp.hdr self.head (pre ++ r :: post))
    (hsize : 0 < size)
    (hpre : ∀ x ∈ pre, ¬ fits hp.hdr size x)
    (hfit : fits hp.hdr size r)
    (hfuel : (pre ++ r :: post).length ≤ fuel) :
    ∃ hp' : Heap, self.malloc fuel hp size = .ok (r + META_SIZE, self, hp')
      ∧ (hp'.hdr r).free = false
      ∧ hp'.sbrk_calls = hp.sbrk_calls ∧ hp'.brk = hp.brk
      ∧ Records hp'.hdr self.head (pre ++ r :: post)
      ∧ (∀ x, (hp'.hdr x).size = (hp.hdr x).size ∧ (hp'.hdr x).next = (hp.hdr x).next)
      ∧ (∀ x, x ≠ r → hp'.hdr x = hp.hdr x)
      ∧ hp'.mem = hp.mem :=
  ⟨hp.set_hdr r { hp.hdr r with free := false },
    malloc_hit fuel self hp size pre post r hrec hsize hpre hfit hfuel,
    by rw [set_hdr_same], rfl, rfl, Records.set_flag r false hrec,
    set_hdr_fields hp r false, fun x hx => set_hdr_other hp r _ x hx, rfl⟩

/-- Example of `malloc_first_fit_reuse`: with the 100-byte head block and the tighter 60-byte
block both free, `malloc(50)` takes the head block. -/
theorem malloc_first_fit_reuse_witness :
    Records heap_two_free.hdr 4180 [4180, 4096] ∧ fits heap_two_free.hdr 50 4096 ∧
    ∃ hp' : Heap, (allocator.mk 4180).malloc 2 heap_two_free 50 = .ok (4180 + META_SIZE, ⟨4180⟩, hp')
      ∧ (hp'.hdr 4180).free = false
      ∧ hp'.sbrk_calls = heap_two_free.sbrk_calls ∧ hp'.brk = heap_two_free.brk
      ∧ Records hp'.hdr 4180 [4180, 4096]
      ∧ (∀ x, (hp'.hdr x).size = (heap_two_free.hdr x).size
          ∧ (hp'.hdr x).next = (heap_two_free.hdr x).next)
      ∧ (∀ x, x ≠ 4180 → hp'.hdr x = heap_two_free.hdr x)
      ∧ hp'.mem = heap_two_free.mem :=
  ⟨by decide, by decide,
    malloc_first_fit_reuse 2 ⟨4180⟩ heap_two_free 50 [] [4096] 4180
      (by decide) (by decide) (by simp) (by decide) (by decide)⟩

/-- Miss path below the break.  In a state whose block list `rs` from `head` ends in null and
lies below the (non-null) program break: when `size > 0`, no block of the list is free and
large enough and `sbrk` succeeds, `malloc(size)` writes one new header
`{size, in-use, next = old head}` at the old break, makes it the head, so that the list
becomes `new :: rs`, leaves every other header and every byte as they were and returns the
new block's data address; in every other case `malloc` returns with the same head and the
same list `rs`.  The statement is one of the typed stores: it describes the machine while
the blocks are pairwise disjoint, as under `Inv`, and `size + META_SIZE` stays below
`2 ^ 63`, so that the new header lies in claimed memory. -/
theorem malloc_miss_path (fuel : Nat) (self : allocator) (hp : Heap) (size : Nat)
    (rs : List Nat)
    (hrec : Records hp.hdr self.head rs)
    (hbrk : 0 < hp.brk)
    (hbelow : ∀ x ∈ rs, x < hp.brk)
    (hfuel : rs.length ≤ fuel) :
    (0 < size → (∀ x ∈ rs, ¬ fits hp.hdr size x) →
      (sbrk hp (to_intptr ((size + META_SIZE) % 2 ^ 64))).1 ≠ none →
      ∃ hp' : Heap, self.malloc fuel hp size = .ok (hp.brk + META_SIZE, { head := hp.brk }, hp')
        ∧ hp'.hdr hp.brk = { size := size, free := false, next := self.head }
        ∧ Records hp'.hdr hp.brk (hp.brk :: rs)
        ∧ (∀ x, x ≠ hp.brk → hp'.hdr x = hp.hdr x)
        ∧ hp'.mem = hp.mem)
    ∧ (¬ (0 < size ∧ (∀ x ∈ rs, ¬ fits hp.hdr size x) ∧
          (sbrk hp (to_intptr ((size + META_SIZE) % 2 ^ 64))).1 ≠ none) →
      ∃ (p : Nat) (hp' : Heap), self.malloc fuel hp size = .ok (p, self, hp')
        ∧ Records hp'.hdr self.head rs) := by
  constructor
  · intro hsize hnone hgrow
    refine ⟨_, malloc_miss_ok fuel self hp size rs hrec hsize hnone hfuel hbrk hgrow,
      set_hdr_same _ _ _, ?_, fun x hx => set_hdr_other _ _ _ x hx, rfl⟩
    have hrec' : Records ({ hp with
        brk := ((hp.brk : Int) + to_intptr ((size + META_SIZE) % 2 ^ 64)).toNat,
        sbrk_calls := hp.sbrk_calls + 1 } : Heap).hdr self.head rs := hrec
    exact Records.push hp.brk _ hrec' (by omega)
      (fun x hx => Nat.ne_of_lt (hbelow x hx)) rfl
  · intro hnot
    rcases Nat.eq_zero_or_pos size with h0 | hpos
    · subst h0
      exact ⟨0, hp, malloc_zero fuel self hp, hrec⟩
    · rcases first_fit_split (fits hp.hdr size) rs with hnone | ⟨pre, r, post, hsplit, hpre, hfit⟩
      · have hfail : (sbrk hp (to_intptr ((size + META_SIZE) % 2 ^ 64))).1 = none := by
          by_contra hne
          exact hnot ⟨hpos, hnone, hne⟩
        exact ⟨0, _, malloc_miss_fail fuel self hp size rs hrec hpos hnone hfuel hfail, hrec⟩
      · subst hsplit
        exact ⟨_, _, malloc_hit fuel self hp size pre post r hrec hpos hpre hfit hfuel,
          Records.set_flag r false hrec⟩

/-- Example of `malloc_miss_path`: on the two-block heap `malloc(200)` misses and prepends a
block at the break, `malloc(50)` hits and leaves the list as it is. -/
theorem malloc_miss_path_witness :
    (Records heap_two_free.hdr 4180 [4180, 4096] ∧ 0 < heap_two_free.brk ∧
      (∀ x ∈ [4180, 4096], x < heap_two_free.brk)) ∧
    (∃ hp' : Heap, (allocator.mk 4180).malloc 2 heap_two_free 200
        = .ok (heap_two_free.brk + META_SIZE, { head := heap_two_free.brk }, hp')
      ∧ hp'.hdr heap_two_free.brk = { size := 200, free := false, next := 4180 }
      ∧ Records hp'.hdr heap_two_free.brk (heap_two_free.brk :: [4180, 4096])
      ∧ (∀ x, x ≠ heap_two_free.brk → hp'.hdr x = heap_two_free.hdr x)
      ∧ hp'.mem = heap_two_free.mem) ∧
    (∃ (p : Nat) (hp' : Heap), (allocator.mk 4180).malloc 2 heap_two_free 50
        = .ok (p, allocator.mk 4180, hp')
      ∧ Records hp'.hdr 4180 [4180, 4096]) :=
  ⟨⟨by decide, by decide, by decide⟩,
    (malloc_miss_path 2 ⟨4180⟩ heap_two_free 200 [4180, 4096]
      (by decide) (by decide) (by decide) (by decide)).1 (by decide) (by decide) (by decide),
    (malloc_miss_path 2 ⟨4180⟩ heap_two_free 50 [4180, 4096]
      (by decide) (by decide) (by decide) (by decide)).2 (by decide)⟩

/-- Null result on a null-terminated list.  In a state whose block list `rs` ends in null and
whose break is non-null, `malloc(size)` with `size > 0` returns, and its result is null
exactly when no block of the list is free and large enough and `sbrk` fails; when the
result is null the head, every header, every byte and the break are as before the call.
The statement is one of the typed stores: it describes the machine while
`size + META_SIZE` stays below `2 ^ 63`, so that the new header lies in claimed memory. -/
theorem malloc_null_iff (fuel : Nat) (self : allocator) (hp : Heap) (size : Nat)
    (rs : List Nat)
    (hrec : Records hp.hdr self.head rs)
    (hsize : 0 < size)
    (hbrk : 0 < hp.brk)
    (hfuel : rs.length ≤ fuel) :
    ∃ (p : Nat) (self' : allocator) (hp' : Heap),
      self.malloc fuel hp size = .ok (p, self', hp')
      ∧ (p = 0 ↔ ((∀ x ∈ rs, ¬ fits hp.hdr size x) ∧
            (sbrk hp (to_intptr ((size + META_SIZE) % 2 ^ 64))).1 = none))
      ∧ (p = 0 → self' = self ∧ hp'.hdr = hp.hdr ∧ hp'.mem = hp.mem ∧ hp'.brk = hp.brk
            ∧ Records hp'.hdr self'.head rs) := by
  rcases first_fit_split (fits hp.hdr size) rs with hnone | ⟨pre, r, post, hsplit, hpre, hfit⟩
  · by_cases hgrow : (sbrk hp (to_intptr ((size + META_SIZE) % 2 ^ 64))).1 = none
    · exact ⟨0, self, _, malloc_miss_fail fuel self hp size rs hrec hsize hnone hfuel hgrow,
        ⟨fun _ => ⟨hnone, hgrow⟩, fun _ => rfl⟩, fun _ => ⟨rfl, rfl, rfl, rfl, hrec⟩⟩
    · have hne : hp.brk + META_SIZE ≠ 0 := by unfold META_SIZE; omega
      exact ⟨_, _, _, malloc_miss_ok fuel self hp size rs hrec hsize hnone hfuel hbrk hgrow,
        ⟨fun h => absurd h hne, fun h => absurd h.2 hgrow⟩, fun h => absurd h hne⟩
  · subst hsplit
    have hne : r + META_SIZE ≠ 0 := by unfold META_SIZE; omega
    exact ⟨_, _, _, malloc_hit fuel self hp size pre post r hrec hsize hpre hfit hfuel,
      ⟨fun h => absurd h hne,
        fun h => absurd hfit (h.1 r (List.mem_append_right _ (List.mem_cons_self _ _)))⟩,
      fun h => absurd h hne⟩

/-- Example of `malloc_null_iff`: on the heap whose limit leaves no room, `malloc(200)` is
null. -/
theorem malloc_null_iff_witness :
    (Records heap_exhausted.hdr 4180 [4180, 4096] ∧ 0 < heap_exhausted.brk) ∧
    ∃ (p : Nat) (self' : allocator) (hp' : Heap),
      (allocator.mk 4180).malloc 2 heap_exhausted 200 = .ok (p, self', hp')
      ∧ (p = 0 ↔ ((∀ x ∈ [4180, 4096], ¬ fits heap_exhausted.hdr 200 x) ∧
            (sbrk heap_exhausted (to_intptr ((200 + META_SIZE) % 2 ^ 64))).1 = none))
      ∧ (p = 0 → self' = allocator.mk 4180 ∧ hp'.hdr = heap_exhausted.hdr
            ∧ hp'.mem = heap_exhausted.mem ∧ hp'.brk = heap_exhausted.brk
            ∧ Records hp'.hdr self'.head [4180, 4096]) :=
  ⟨⟨by decide, by decide⟩,
    malloc_null_iff 2 ⟨4180⟩ heap_exhausted 200 [4180, 4096]
      (by decide) (by decide) (by decide) (by decide)⟩

/-- Growth preserves data below the break.  In a state whose block list `rs` ends in null and
lies below the non-null break, let `p` be the data address of a block `r` of the list that
is in use, with recorded size `c < newSize`, and let the inner `malloc(newSize)` succeed
(some block of the list is free and large enough, or `sbrk` succeeds).  Then
`realloc(p, newSize)` returns a non-null `q ≠ p` whose first `c` bytes are the `c` bytes
that were at `p` before the call; afterwards the block of `q` is in use with recorded size
at least `newSize`, and the block of `p` is free with its size still `c`.  The statement is
one of the typed stores: it describes the machine while the blocks are pairwise disjoint,
as under `Inv`, and `newSize + META_SIZE` stays below `2 ^ 63`, so that the destination of
the copy lies in claimed memory. -/
theorem realloc_growth_preserves_data (fuel : Nat) (self : allocator) (hp : Heap)
    (r newSize : Nat) (rs : List Nat)
    (hrec : Records hp.hdr self.head rs)
    (hbrk : 0 < hp.brk)
    (hbelow : ∀ x ∈ rs, x < hp.brk)
    (hr : r ∈ rs)
    (hused : (hp.hdr r).free = false)
    (hlt : (hp.hdr r).size < newSize)
    (hsucc : (∃ x ∈ rs, fits hp.hdr newSize x) ∨
      (sbrk hp (to_intptr ((newSize + META_SIZE) % 2 ^ 64))).1 ≠ none)
    (hfuel : rs.length ≤ fuel) :
    ∃ (q : Nat) (self' : allocator) (hp' : Heap),
      self.realloc fuel hp (r + META_SIZE) newSize = .ok (q, self', hp')
      ∧ q ≠ 0 ∧ q ≠ r + META_SIZE
      ∧ (∀ i, i < (hp.hdr r).size → hp'.mem (q + i) = hp.mem (r + META_SIZE + i))
      ∧ (hp'.hdr (get_block_ptr q)).free = false
      ∧ newSize ≤ (hp'.hdr (get_block_ptr q)).size
      ∧ (hp'.hdr r).free = true
      ∧ (hp'.hdr r).size = (hp.hdr r).size := by
  have hp0 : r + META_SIZE ≠ 0 := by unfold META_SIZE; omega
  have hgb : get_block_ptr (r + META_SIZE) = r := get_block_ptr_data r
  have hsz : 0 < newSize := by omega
  rcases first_fit_split (fits hp.hdr newSize) rs with hnone | ⟨pre, t, post, hsplit, hpre, hfit⟩
  · have hgrow : (sbrk hp (to_intptr ((newSize + META_SIZE) % 2 ^ 64))).1 ≠ none := by
      rcases hsucc with ⟨x, hx, hfx⟩ | h
      · exact absurd hfx (hnone x hx)
      · exact h
    have hne : r ≠ hp.brk := Nat.ne_of_lt (hbelow r hr)
    have hm := malloc_miss_ok fuel self hp newSize rs hrec hsz hnone hfuel hbrk hgrow
    have hq0 : hp.brk + META_SIZE ≠ 0 := by unfold META_SIZE; omega
    refine ⟨_, _, _, realloc_grow_eq fuel self _ hp _ _ _ newSize hp0 (by rw [hgb]; exact hlt) hm
      hq0 ?_, hq0, by omega, ?_, ?_, ?_, ?_, ?_⟩
    · rw [hgb, set_hdr_other _ _ _ r hne]
      exact hused
    · intro i hi
      rw [hgb, set_hdr_other _ _ _ r hne]
      exact memcpy_prefix _ _ _ _ i hi
    · rw [hgb, get_block_ptr_data, set_hdr_other _ _ _ _ (Ne.symm hne)]
      show ((Heap.set_hdr _ hp.brk _).hdr hp.brk).free = false
      rw [set_hdr_same]
    · rw [hgb, get_block_ptr_data, set_hdr_other _ _ _ _ (Ne.symm hne)]
      show newSize ≤ ((Heap.set_hdr _ hp.brk _).hdr hp.brk).size
      rw [set_hdr_same]
    · rw [hgb, set_hdr_same]
    · rw [hgb, set_hdr_same]
      show ((Heap.set_hdr _ hp.brk _).hdr r).size = (hp.hdr r).size
      rw [set_hdr_other _ _ _ r hne]
  · subst hsplit
    have hne : r ≠ t := by
      rintro rfl
      rw [hfit.1] at hused
      exact Bool.noConfusion hused
    have hm := malloc_hit fuel self hp newSize pre post t hrec hsz hpre hfit hfuel
    have hq0 : t + META_SIZE ≠ 0 := by unfold META_SIZE; omega
    refine ⟨_, _, _, realloc_grow_eq fuel self _ hp _ _ _ newSize hp0 (by rw [hgb]; exact hlt) hm
      hq0 ?_, hq0, by omega, ?_, ?_, ?_, ?_, ?_⟩
    · rw [hgb, set_hdr_other _ _ _ r hne]
      exact hused
    · intro i hi
      rw [hgb, set_hdr_other _ _ _ r hne]
      exact memcpy_prefix _ _ _ _ i hi
    · rw [hgb, get_block_ptr_data, set_hdr_other _ _ _ _ (Ne.symm hne)]
      show ((hp.set_hdr t _).hdr t).free = false
      rw [set_hdr_same]
    · rw [hgb, get_block_ptr_data, set_hdr_other _ _ _ _ (Ne.symm hne)]
      show newSize ≤ ((hp.set_hdr t _).hdr t).size
      rw [set_hdr_same]
      exact hfit.2
    · rw [hgb, set_hdr_same]
    · rw [hgb, set_hdr_same]
      show ((hp.set_hdr t _).hdr r).size = (hp.hdr r).size
      rw [set_hdr_other _ _ _ r hne]

/-- Example of `realloc_growth_preserves_data`: the 100-byte block of `heap_filled`, filled
with `0xBB`, grown to 200. -/
theorem realloc_growth_preserves_data_witness :
    (∀ i, i < 100 → heap_filled.mem (4096 + META_SIZE + i) = 0xBB) ∧
    ∃ (q : Nat) (self' : allocator) (hp' : Heap),
      (allocator.mk 4096).realloc 1 heap_filled (4096 + META_SIZE) 200 = .ok (q, self', hp')
      ∧ q ≠ 0 ∧ q ≠ 4096 + META_SIZE
      ∧ (∀ i, i < (heap_filled.hdr 4096).size →
          hp'.mem (q + i) = heap_filled.mem (4096 + META_SIZE + i))
      ∧ (hp'.hdr (get_block_ptr q)).free = false
      ∧ 200 ≤ (hp'.hdr (get_block_ptr q)).size
      ∧ (hp'.hdr 4096).free = true
      ∧ (hp'.hdr 4096).size = (heap_filled.hdr 4096).size :=
  ⟨fun i hi => by
      have h1 : 4120 ≤ 4096 + META_SIZE + i := by unfold META_SIZE; omega
      have h2 : 4096 + META_SIZE + i < 4220 := by unfold META_SIZE; omega
      simp only [heap_filled, if_pos (And.intro h1 h2)],
    realloc_growth_preserves_data 1 ⟨4096⟩ heap_filled 4096 200 [4096]
      (by decide) (by decide) (by decide) (by decide) (by decide) (by decide)
      (Or.inr (by decide)) (by decide)⟩

/-- Zero-fill of `calloc` on the byte store.  For `size > 0` and `nmemb * size <= SIZE_MAX`,
when `malloc(nmemb * size)` on the same state returns a non-null `p` with allocator `self1`
and heap `hp1`, `calloc(nmemb, size)` returns the same `p` and `self1`; in its heap the bytes
`p[0 .. nmemb*size)` are zero and every byte outside that range, so every byte below `p`,
where the header lies, and every byte from `p + nmemb*size` on, is the byte of `hp1`; every
header, the break and the count of `sbrk` calls are those of `hp1`.  The statement is one of
the typed stores: it describes the machine while `nmemb * size + META_SIZE` stays below
`2 ^ 63` and the blocks are pairwise disjoint, so that the filled range lies in claimed
memory and holds no header. -/
theorem calloc_zero_fill (fuel : Nat) (self self1 : allocator) (hp hp1 : Heap)
    (nmemb size p : Nat)
    (hsize : 0 < size) (hfit : nmemb * size ≤ SIZE_MAX)
    (hm : self.malloc fuel hp (nmemb * size) = .ok (p, self1, hp1))
    (hp0 : p ≠ 0) :
    ∃ hp' : Heap, self.calloc fuel hp nmemb size = .ok (p, self1, hp')
      ∧ (∀ i, i < nmemb * size → hp'.mem (p + i) = 0)
      ∧ (∀ x, (x < p ∨ p + nmemb * size ≤ x) → hp'.mem x = hp1.mem x)
      ∧ (∀ x, get_block_ptr p ≤ x → x < p → hp'.mem x = hp1.mem x)
      ∧ hp'.hdr = hp1.hdr ∧ hp'.brk = hp1.brk ∧ hp'.sbrk_calls = hp1.sbrk_calls := by
  have hg : calloc_guard nmemb size = false := by
    unfold calloc_guard
    have hne : size ≠ 0 := by omega
    have hle : ¬ SIZE_MAX / size < nmemb := by
      rw [Nat.div_lt_iff_lt_mul hsize]
      omega
    simp [hne, hle]
  have hmod : (nmemb * size) % 2 ^ 64 = nmemb * size := by
    apply Nat.mod_eq_of_lt
    unfold SIZE_MAX at hfit
    omega
  have hout : ∀ x, (x < p ∨ p + nmemb * size ≤ x) →
      (memset hp1 p 0 (nmemb * size)).mem x = hp1.mem x := by
    intro x hx
    unfold memset
    simp only
    rw [if_neg (by omega)]
  refine ⟨memset hp1 p 0 (nmemb * size), ?_, ?_, hout, fun x _ hx => hout x (Or.inl hx),
    rfl, rfl, rfl⟩
  · unfold calloc
    rw [hg, hmod, hm]
    simp [hp0]
  · intro i hi
    unfold memset
    simp only
    rw [if_pos ⟨by omega, by omega⟩]

/-- Example of `calloc_zero_fill`: `calloc(10, 4)` reuses the free 100-byte block of
`heap_stale`, whose payload holds `0xBB`; the forty bytes read back zero and the sixty bytes
after them are still `0xBB`. -/
theorem calloc_zero_fill_witness :
    ∃ hp1 : Heap, (allocator.mk 4096).malloc 1 heap_stale (10 * 4) = .ok (4120, ⟨4096⟩, hp1)
      ∧ (∀ x, 4160 ≤ x → x < 4220 → hp1.mem x = 0xBB)
      ∧ ∃ hp' : Heap, (allocator.mk 4096).calloc 1 heap_stale 10 4 = .ok (4120, ⟨4096⟩, hp')
        ∧ (∀ i, i < 10 * 4 → hp'.mem (4120 + i) = 0)
        ∧ (∀ x, (x < 4120 ∨ 4120 + 10 * 4 ≤ x) → hp'.mem x = hp1.mem x)
        ∧ (∀ x, get_block_ptr 4120 ≤ x → x < 4120 → hp'.mem x = hp1.mem x)
        ∧ hp'.hdr = hp1.hdr ∧ hp'.brk = hp1.brk ∧ hp'.sbrk_calls = hp1.sbrk_calls :=
  ⟨heap_stale.set_hdr 4096 { heap_stale.hdr 4096 with free := false }, rfl,
    fun x h1 h2 => by
      show (if 4120 ≤ x ∧ x < 4220 then 0xBB else 0) = 0xBB
      rw [if_pos ⟨by omega, h2⟩],
    calloc_zero_fill 1 ⟨4096⟩ ⟨4096⟩ heap_stale _ 10 4 4120 (by decide) (by decide) rfl
      (by decide)⟩

/-- Frame of `free` on the typed stores.  For a non-null `p` whose block, the header at
`p - META_SIZE`, is in use, `free(p)` returns, whatever the allocator's list is and without
any scan (no fuel is involved, and any allocator gives the same result); afterwards the flag
of that header is free, its size and `next` are unchanged, every other header, every byte,
the break and the count of `sbrk` calls are unchanged.  The allocator (its `head`) is not
part of the result.  The frame part describes the machine while that header lies in no
other block, as under `Inv`. -/
theorem free_frame (self : allocator) (hp : Heap) (p : Nat)
    (hp0 : p ≠ 0) (hused : (hp.hdr (get_block_ptr p)).free = false) :
    ∃ hp' : Heap, self.free hp p = .ok hp'
      ∧ get_block_ptr p = p - META_SIZE
      ∧ (∀ other : allocator, other.free hp p = .ok hp')
      ∧ (hp'.hdr (get_block_ptr p)).free = true
      ∧ (hp'.hdr (get_block_ptr p)).size = (hp.hdr (get_block_ptr p)).size
      ∧ (hp'.hdr (get_block_ptr p)).next = (hp.hdr (get_block_ptr p)).next
      ∧ (∀ x, x ≠ get_block_ptr p → hp'.hdr x = hp.hdr x)
      ∧ hp'.mem = hp.mem ∧ hp'.brk = hp.brk ∧ hp'.sbrk_calls = hp.sbrk_calls := by
  have hfree : ∀ a : allocator, a.free hp p
      = .ok (hp.set_hdr (get_block_ptr p) { hp.hdr (get_block_ptr p) with free := true }) := by
    intro a
    unfold free
    rw [if_neg hp0, if_pos hused]
  refine ⟨_, hfree self, rfl, hfree, ?_, (set_hdr_fields hp _ true _).1,
    (set_hdr_fields hp _ true _).2, fun x hx => set_hdr_other hp _ _ x hx, rfl, rfl, rfl⟩
  rw [set_hdr_same]

/-- Example of `free_frame`: releasing the in-use block of `heap_filled`. -/
theorem free_frame_witness :
    ∃ hp' : Heap, (allocator.mk 4096).free heap_filled 4120 = .ok hp'
      ∧ get_block_ptr 4120 = 4120 - META_SIZE
      ∧ (∀ other : allocator, other.free heap_filled 4120 = .ok hp')
      ∧ (hp'.hdr (get_block_ptr 4120)).free = true
      ∧ (hp'.hdr (get_block_ptr 4120)).size = (heap_filled.hdr (get_block_ptr 4120)).size
      ∧ (hp'.hdr (get_block_ptr 4120)).next = (heap_filled.hdr (get_block_ptr 4120)).next
      ∧ (∀ x, x ≠ get_block_ptr 4120 → hp'.hdr x = heap_filled.hdr x)
      ∧ hp'.mem = heap_filled.mem ∧ hp'.brk = heap_filled.brk
      ∧ hp'.sbrk_calls = heap_filled.sbrk_calls :=
  free_frame ⟨4096⟩ heap_filled 4120 (by decide) (by decide)

/-- Append-only list below the break.  In a state whose block list `rs` ends in null and lies
below the non-null break, every call of `malloc`, `free`, `realloc` or `calloc` whose
pointer argument is null or the data address of an in-use block of the list returns, and
afterwards the list is `rs` itself with the same head, or `b :: rs` for one new block `b` at
the head; every block of `rs` is at its address and place in the list with its recorded size
and `next` unchanged, so that only flags of old blocks can have changed.  The statement is
one of the typed stores: it describes the machine while the blocks are pairwise disjoint,
as under `Inv`, and the request plus `META_SIZE` stays below `2 ^ 63`. -/
theorem record_list_append_only (fuel : Nat) (self : allocator) (hp : Heap) (c : Call)
    (rs : List Nat)
    (hrec : Records hp.hdr self.head rs)
    (hbrk : 0 < hp.brk)
    (hbelow : ∀ x ∈ rs, x < hp.brk)
    (howned : c.owned hp.hdr rs)
    (hfuel : rs.length ≤ fuel) :
    ∃ (q : Nat) (self' : allocator) (hp' : Heap),
      c.run fuel self hp = .ok (q, self', hp')
      ∧ ((self' = self ∧ Records hp'.hdr self'.head rs)
          ∨ ∃ b, b ∉ rs ∧ self'.head = b ∧ Records hp'.hdr self'.head (b :: rs))
      ∧ ∀ r ∈ rs, (hp'.hdr r).size = (hp.hdr r).size ∧ (hp'.hdr r).next = (hp.hdr r).next := by
  obtain ⟨q, self', hp', hrun, hl, hf, -, -⟩ :=
    call_effect fuel self hp c rs hrec hbrk hbelow howned hfuel
  refine ⟨q, self', hp', hrun, ?_, fun r hr => hf r (Nat.ne_of_lt (hbelow r hr))⟩
  rcases hl with h | ⟨e, h⟩
  · exact Or.inl h
  · refine Or.inr ⟨hp.brk, fun hin => Nat.lt_irrefl _ (hbelow _ hin), ?_, h⟩
    rw [e]

/-- Example of `record_list_append_only`: growing the in-use block of `heap_filled` to 200
bytes. -/
theorem record_list_append_only_witness :
    (Call.realloc 4120 200).owned heap_filled.hdr [4096] ∧
    ∃ (q : Nat) (self' : allocator) (hp' : Heap),
      (Call.realloc 4120 200).run 1 ⟨4096⟩ heap_filled = .ok (q, self', hp')
      ∧ ((self' = allocator.mk 4096 ∧ Records hp'.hdr self'.head [4096])
          ∨ ∃ b, b ∉ [4096] ∧ self'.head = b ∧ Records hp'.hdr self'.head (b :: [4096]))
      ∧ ∀ r ∈ [4096], (hp'.hdr r).size = (heap_filled.hdr r).size
          ∧ (hp'.hdr r).next = (heap_filled.hdr r).next :=
  ⟨Or.inr ⟨4096, by decide, by decide, rfl⟩,
    record_list_append_only 1 ⟨4096⟩ heap_filled (Call.realloc 4120 200) [4096]
      (by decide) (by decide) (by decide) (Or.inr ⟨4096, by decide, by decide, rfl⟩)
      (by decide)⟩

/-- Isolation of two allocators below the break.  Let two allocators share one heap, their
block lists `rs1` and `rs2` end in null, have no block in common and lie below the non-null
break.  Every call on the first whose pointer argument is null or the data address of one of
its own in-use blocks returns; afterwards every header of the second's list (size, flag,
`next`) is unchanged and its list from its head is still `rs2`; the returned pointer is null
or differs from the data address of every block of the second, free or in use; and the
first's new list still has no block in common with the second's.  The statement is one of
the typed stores: it describes the machine while the blocks are pairwise disjoint and the
request plus `META_SIZE` stays below `2 ^ 63`. -/
theorem instances_isolated (fuel : Nat) (a1 a2 : allocator) (hp : Heap) (c : Call)
    (rs1 rs2 : List Nat)
    (hrec1 : Records hp.hdr a1.head rs1)
    (hrec2 : Records hp.hdr a2.head rs2)
    (hdisj : ∀ x ∈ rs1, x ∉ rs2)
    (hbrk : 0 < hp.brk)
    (hbelow1 : ∀ x ∈ rs1, x < hp.brk)
    (hbelow2 : ∀ x ∈ rs2, x < hp.brk)
    (howned : c.owned hp.hdr rs1)
    (hfuel : rs1.length ≤ fuel) :
    ∃ (q : Nat) (a1' : allocator) (hp' : Heap),
      c.run fuel a1 hp = .ok (q, a1', hp')
      ∧ (∀ x ∈ rs2, hp'.hdr x = hp.hdr x)
      ∧ Records hp'.hdr a2.head rs2
      ∧ (q = 0 ∨ ∀ x ∈ rs2, q ≠ x + META_SIZE)
      ∧ ∃ rs1', Records hp'.hdr a1'.head rs1' ∧ ∀ x ∈ rs1', x ∉ rs2 := by
  obtain ⟨q, a1', hp', hrun, hl, -, ho, hq⟩ :=
    call_effect fuel a1 hp c rs1 hrec1 hbrk hbelow1 howned hfuel
  have hkeep : ∀ x ∈ rs2, hp'.hdr x = hp.hdr x := fun x hx =>
    ho x (Nat.ne_of_lt (hbelow2 x hx)) (fun h1 => hdisj x h1 hx)
  refine ⟨q, a1', hp', hrun, hkeep, Records.congr_off rs2 _ hkeep hrec2, ?_, ?_⟩
  · rcases hq with h | h | ⟨r, hr, h⟩
    · exact Or.inl h
    · right
      intro x hx e
      have := hbelow2 x hx
      omega
    · right
      intro x hx e
      have : r = x := by omega
      exact hdisj r hr (this ▸ hx)
  · rcases hl with ⟨-, h⟩ | ⟨-, h⟩
    · exact ⟨rs1, h, hdisj⟩
    · refine ⟨hp.brk :: rs1, h, ?_⟩
      intro x hx hx2
      rcases List.mem_cons.1 hx with rfl | hx
      · exact Nat.lt_irrefl _ (hbelow2 _ hx2)
      · exact hdisj x hx hx2

/-- Example of `instances_isolated`: after `alloc1.malloc(100)` returned 4120 on a fresh heap,
`malloc(100)` on a second, fresh allocator returns 4244 and leaves the block of the first as
it is. -/
theorem instances_isolated_witness :
    ∃ (a1 : allocator) (h1 : Heap),
      allocator.new.malloc 0 (Heap.init 4096 (2 ^ 40)) 100 = .ok (4120, a1, h1)
      ∧ (∃ hp2 : Heap, allocator.new.malloc 0 h1 100 = .ok (4244, ⟨4220⟩, hp2))
      ∧ ∃ (q : Nat) (a2' : allocator) (hp' : Heap),
        (Call.malloc 100).run 0 allocator.new h1 = .ok (q, a2', hp')
        ∧ (∀ x ∈ [4096], hp'.hdr x = h1.hdr x)
        ∧ Records hp'.hdr a1.head [4096]
        ∧ (q = 0 ∨ ∀ x ∈ [4096], q ≠ x + META_SIZE)
        ∧ ∃ rs1', Records hp'.hdr a2'.head rs1' ∧ ∀ x ∈ rs1', x ∉ [4096] :=
  ⟨_, _, rfl, ⟨_, rfl⟩,
    instances_isolated 0 allocator.new _ _ (Call.malloc 100) [] [4096]
      (by decide) (by decide) (by simp) (by decide) (by simp) (by decide) trivial (by decide)⟩

/-- The copy of a growing `realloc` under the invariant.  In a state satisfying `Inv`
(null-terminated list, blocks carved in order below the break), let `p = r + META_SIZE` for
an in-use block `r` of the list with recorded size `c < newSize`, and let the inner
`malloc(newSize)` succeed.  Then `realloc(p, newSize)` runs `memcpy(q, p, n)` where `q` is
the non-null result of the inner `malloc` and `n`, read from the header of `r` after that
`malloc`, is `c`; `c < newSize <=` the recorded size of the block of `q`; the block of `q`
is not `r`; the `c` bytes written end within the recorded payload of the block of `q`; the
ranges `[p, p + c)` and `[q, q + c)` have no byte in common; and when `newSize + META_SIZE`
stays below `2 ^ 63` the bytes written lie below the break. -/
theorem realloc_copy_in_bounds (fuel : Nat) (self : allocator) (hp : Heap)
    (r newSize : Nat) (rs : List Nat)
    (hinv : Inv self hp rs)
    (hr : r ∈ rs)
    (hused : (hp.hdr r).free = false)
    (hlt : (hp.hdr r).size < newSize)
    (hsucc : (∃ x ∈ rs, fits hp.hdr newSize x) ∨
      (sbrk hp (to_intptr ((newSize + META_SIZE) % 2 ^ 64))).1 ≠ none)
    (hfuel : rs.length ≤ fuel) :
    ∃ (q : Nat) (self1 : allocator) (hp1 : Heap),
      self.malloc fuel hp newSize = .ok (q, self1, hp1) ∧ q ≠ 0
      ∧ self.realloc fuel hp (r + META_SIZE) newSize = .ok (q, self1,
          (memcpy hp1 q (r + META_SIZE) (hp1.hdr (get_block_ptr (r + META_SIZE))).size).set_hdr
            (get_block_ptr (r + META_SIZE))
            { hp1.hdr (get_block_ptr (r + META_SIZE)) with free := true })
      ∧ (hp1.hdr (get_block_ptr (r + META_SIZE))).size = (hp.hdr r).size
      ∧ (hp.hdr r).size < newSize ∧ newSize ≤ (hp1.hdr (get_block_ptr q)).size
      ∧ get_block_ptr q ≠ r
      ∧ q + (hp.hdr r).size ≤ get_block_ptr q + META_SIZE + (hp1.hdr (get_block_ptr q)).size
      ∧ (r + META_SIZE + (hp.hdr r).size ≤ q ∨ q + (hp.hdr r).size ≤ r + META_SIZE)
      ∧ (newSize + META_SIZE < 2 ^ 63 → q + (hp.hdr r).size ≤ hp1.brk) := by
  have hp0 : r + META_SIZE ≠ 0 := by unfold META_SIZE; omega
  have hgb : get_block_ptr (r + META_SIZE) = r := get_block_ptr_data r
  have hsz : 0 < newSize := by omega
  have hend := Carved.end_le rs hp.brk hinv.2.1 r hr
  rcases first_fit_split (fits hp.hdr newSize) rs with hnone | ⟨pre, t, post, hsplit, hpre, hfit⟩
  · have hgrow : (sbrk hp (to_intptr ((newSize + META_SIZE) % 2 ^ 64))).1 ≠ none := by
      rcases hsucc with ⟨x, hx, hfx⟩ | h
      · exact absurd hfx (hnone x hx)
      · exact h
    have hne : r ≠ hp.brk := Nat.ne_of_lt (hinv.below r hr)
    have hm := malloc_miss_ok fuel self hp newSize rs hinv.1 hsz hnone hfuel hinv.brk_pos hgrow
    have hq0 : hp.brk + META_SIZE ≠ 0 := by unfold META_SIZE; omega
    have hkeep : ∀ m, ((Heap.mk hp.start_brk
        ((hp.brk : Int) + to_intptr ((newSize + META_SIZE) % 2 ^ 64)).toNat hp.rlimit hp.hdr
        hp.mem (hp.sbrk_calls + 1)).set_hdr hp.brk m).hdr r = hp.hdr r :=
      fun m => set_hdr_other _ _ m r hne
    have hnew : ∀ m, ((Heap.mk hp.start_brk
        ((hp.brk : Int) + to_intptr ((newSize + META_SIZE) % 2 ^ 64)).toNat hp.rlimit hp.hdr
        hp.mem (hp.sbrk_calls + 1)).set_hdr hp.brk m).hdr hp.brk = m :=
      fun m => set_hdr_same _ _ m
    refine ⟨_, _, _, hm, hq0, realloc_grow_eq fuel self _ hp _ _ _ newSize hp0
      (by rw [hgb]; exact hlt) hm hq0 ?_, ?_, hlt, ?_, ?_, ?_, ?_, ?_⟩
    · rw [hgb]
      exact (congrArg block_meta.free (hkeep _)).trans hused
    · rw [hgb]
      exact congrArg block_meta.size (hkeep _)
    · rw [get_block_ptr_data, hnew]
    · rw [get_block_ptr_data]
      exact Ne.symm hne
    · rw [get_block_ptr_data, hnew]
      show hp.brk + META_SIZE + (hp.hdr r).size ≤ hp.brk + META_SIZE + newSize
      omega
    · left
      omega
    · intro hsmall
      show hp.brk + META_SIZE + (hp.hdr r).size
        ≤ ((hp.brk : Int) + to_intptr ((newSize + META_SIZE) % 2 ^ 64)).toNat
      rw [to_intptr_small _ hsmall]
      omega
  · subst hsplit
    have ht : t ∈ pre ++ t :: post := by simp
    have hne : r ≠ t := by
      rintro rfl
      rw [hfit.1] at hused
      exact Bool.noConfusion hused
    have hm := malloc_hit fuel self hp newSize pre post t hinv.1 hsz hpre hfit hfuel
    have hq0 : t + META_SIZE ≠ 0 := by unfold META_SIZE; omega
    have hsym : Symmetric (fun a b => ¬ blocks_overlap hp.hdr a b) := by
      intro a b hab hba
      exact hab ⟨hba.2, hba.1⟩
    have hno : ¬ blocks_overlap hp.hdr r t :=
      (Carved.pairwise _ hp.brk hinv.2.1).forall hsym hr ht hne
    have hcap := hfit.2
    refine ⟨_, _, _, hm, hq0, realloc_grow_eq fuel self _ hp _ _ _ newSize hp0
      (by rw [hgb]; exact hlt) hm hq0 ?_, ?_, hlt, ?_, ?_, ?_, ?_, ?_⟩
    · rw [hgb, set_hdr_other _ _ _ r hne]
      exact hused
    · rw [hgb, set_hdr_other _ _ _ r hne]
    · rw [get_block_ptr_data, (set_hdr_fields hp t false t).1]
      exact hcap
    · rw [get_block_ptr_data]
      exact Ne.symm hne
    · rw [get_block_ptr_data, (set_hdr_fields hp t false t).1]
      omega
    · unfold blocks_overlap at hno
      omega
    · intro _
      have htend := Carved.end_le _ hp.brk hinv.2.1 t ht
      show t + META_SIZE + (hp.hdr r).size ≤ hp.brk
      omega

/-- Example of `realloc_copy_in_bounds`: growing the in-use 100-byte block of `heap_filled` to
200 bytes copies 100 bytes from 4120 to 4244. -/
theorem realloc_copy_in_bounds_witness :
    Inv ⟨4096⟩ heap_filled [4096] ∧
    ∃ (q : Nat) (self1 : allocator) (hp1 : Heap),
      (allocator.mk 4096).malloc 1 heap_filled 200 = .ok (q, self1, hp1) ∧ q ≠ 0
      ∧ (allocator.mk 4096).realloc 1 heap_filled (4096 + META_SIZE) 200 = .ok (q, self1,
          (memcpy hp1 q (4096 + META_SIZE)
              (hp1.hdr (get_block_ptr (4096 + META_SIZE))).size).set_hdr
            (get_block_ptr (4096 + META_SIZE))
            { hp1.hdr (get_block_ptr (4096 + META_SIZE)) with free := true })
      ∧ (hp1.hdr (get_block_ptr (4096 + META_SIZE))).size = (heap_filled.hdr 4096).size
      ∧ (heap_filled.hdr 4096).size < 200 ∧ 200 ≤ (hp1.hdr (get_block_ptr q)).size
      ∧ get_block_ptr q ≠ 4096
      ∧ q + (heap_filled.hdr 4096).size
          ≤ get_block_ptr q + META_SIZE + (hp1.hdr (get_block_ptr q)).size
      ∧ (4096 + META_SIZE + (heap_filled.hdr 4096).size ≤ q
          ∨ q + (heap_filled.hdr 4096).size ≤ 4096 + META_SIZE)
      ∧ (200 + META_SIZE < 2 ^ 63 → q + (heap_filled.hdr 4096).size ≤ hp1.brk) :=
  ⟨⟨by decide, ⟨by decide, trivial⟩, by decide, by decide, by decide⟩,
    realloc_copy_in_bounds 1 ⟨4096⟩ heap_filled 4096 200 [4096]
      ⟨by decide, ⟨by decide, trivial⟩, by decide, by decide, by decide⟩
      (by decide) (by decide) (by decide) (Or.inr (by decide)) (by decide)⟩

/-! ## The claims -/

/-- C1 at its failing input.  On a fresh allocator (break 4096), `malloc(5000)`,
`malloc(2^64 - 124)`, `malloc(8)` and `free(9044)` lead to the list 9020, 9120, 4096 in
which block 9020 is free with size 8 and block 4096 is in use with size 5000, its pointer
4120 never freed.  `malloc(8)` then takes the first-fit path: it returns the data address of
the head block 9020 and writes that block's flag.  The header of 9020 lies inside the
payload `[4120, 9120)` of block 4096, so the write changes a byte of the data region of an
outstanding pointer. -/
theorem hit_writes_into_live_payload :
    ∃ (self : allocator) (hp hp' : Heap),
      run_calls 3 allocator.new (Heap.init 4096 (2 ^ 40))
          [.malloc 5000, .malloc (2 ^ 64 - 124), .malloc 8, .free 9044] = .ok (self, hp)
      ∧ Records hp.hdr self.head [9020, 9120, 4096]
      ∧ fits hp.hdr 8 9020
      ∧ (hp.hdr 4096).free = false ∧ (hp.hdr 4096).size = 5000
      ∧ self.malloc 3 hp 8 = .ok (9020 + META_SIZE, self, hp')
      ∧ (hp.hdr 9020).free = true ∧ (hp'.hdr 9020).free = false
      ∧ header_in_payload hp.hdr 9020 4096 :=
  ⟨_, _, _, rfl, by decide, by decide, by decide, by decide, rfl, by decide, by decide,
    by decide⟩

/-- C2 at its failing input.  On a fresh allocator, `malloc(5000)`, `malloc(2^64 - 124)` and
`malloc(8)` all return non-null pointers; the sum `size + META_SIZE` of the second call is
`2^64 - 100`, which `sbrk` receives as `-100`, so that the third block is carved at address
9020, inside the payload `[4120, 9120)` of the first.  The list then holds the blocks 9020,
9120, 4096, all in use, and the byte ranges of 9020 and 4096 overlap.  Likewise after
`malloc(2^64 - 16)`, whose sum wraps to `8`, and `malloc(8)`: the blocks 4104 and 4096
overlap. -/
theorem overflow_breaks_disjointness :
    (∃ (self : allocator) (hp : Heap),
      malloc_each 3 allocator.new (Heap.init 4096 (2 ^ 40)) [5000, 2 ^ 64 - 124, 8]
        = .ok ([4120, 9144, 9044], self, hp)
      ∧ Records hp.hdr self.head [9020, 9120, 4096]
      ∧ (hp.hdr 9020).free = false ∧ (hp.hdr 4096).free = false
      ∧ (hp.hdr 9020).size = 8 ∧ (hp.hdr 4096).size = 5000
      ∧ blocks_overlap hp.hdr 9020 4096)
    ∧ (∃ (self : allocator) (hp : Heap),
      malloc_each 2 allocator.new (Heap.init 4096 (2 ^ 40)) [2 ^ 64 - 16, 8]
        = .ok ([4120, 4128], self, hp)
      ∧ Records hp.hdr self.head [4104, 4096]
      ∧ blocks_overlap hp.hdr 4104 4096) :=
  ⟨⟨_, _, rfl, by decide, by decide, by decide, by decide, by decide, by decide⟩,
    ⟨_, _, rfl, by decide, by decide⟩⟩

/-- C3 at its failing input.  On a fresh allocator, `malloc(100)`, `malloc(2^64 - 24)` and
`malloc(8)` are called and nothing is freed; the sum `size + META_SIZE` of the second call
wraps to `0`, so `sbrk(0)` hands out the break without moving it and the third call gets the
same block again: it returns 4244, the pointer the second call returned.  The block at 4220
is then its own successor, and a later `malloc(16)` does not return for any fuel. -/
theorem overflow_breaks_ownership :
    ∃ (self : allocator) (hp : Heap),
      malloc_each 3 allocator.new (Heap.init 4096 (2 ^ 40)) [100, 2 ^ 64 - 24, 8]
        = .ok ([4120, 4244, 4244], self, hp)
      ∧ self.head = 4220 ∧ (hp.hdr 4220).next = 4220
      ∧ ∀ fuel, self.malloc fuel hp 16 = .error Fault.diverged := by
  refine ⟨_, _, rfl, by decide, by decide, ?_⟩
  exact malloc_cycle _ _ 16 (by decide) (by decide) (by decide) (by decide)

/-- C4 at its failing input.  After `malloc(100)` and `malloc(2^64 - 24)` on a fresh
allocator the list is 4220, 4096 with both blocks in use, and the break is 4220, the address
of the head block (the second call reached `sbrk` as `sbrk(0)`).  `malloc(8)` then takes the
miss path and `sbrk` succeeds, but no record is added: the block it gets is the head block
4220 again, whose size goes from `2^64 - 24` to 8 and whose `next` becomes 4220 itself; the
head is still 4220 and no null-terminated list starts there any more. -/
theorem miss_overwrites_head_record :
    ∃ (self self' : allocator) (hp hp' : Heap),
      run_calls 2 allocator.new (Heap.init 4096 (2 ^ 40))
          [.malloc 100, .malloc (2 ^ 64 - 24)] = .ok (self, hp)
      ∧ Records hp.hdr self.head [4220, 4096] ∧ hp.brk = 4220
      ∧ (∀ x ∈ [4220, 4096], ¬ fits hp.hdr 8 x)
      ∧ (sbrk hp (to_intptr ((8 + META_SIZE) % 2 ^ 64))).1 = some 4220
      ∧ self.malloc 2 hp 8 = .ok (4220 + META_SIZE, self', hp')
      ∧ self'.head = self.head
      ∧ (hp.hdr 4220).size = 2 ^ 64 - 24 ∧ (hp'.hdr 4220).size = 8
      ∧ (hp'.hdr 4220).next = 4220
      ∧ ∀ rs, ¬ Records hp'.hdr self'.head rs :=
  ⟨_, _, _, _, rfl, by decide, by decide, by decide, by decide, rfl, by decide, by decide,
    by decide, by decide,
    Records.not_of_self_loop _ _ (by decide) (by decide)⟩

/-- C5 at its failing input.  On a fresh allocator over a heap whose limit is 4252,
`malloc(100)`, `malloc(2^64 - 24)` and `malloc(8)` return 4120, 4244 and 4244 and leave the
head block 4220 in use and its own `next`.  For `malloc(16)` no block reached from the head
is free and large enough and `sbrk(40)` would fail, yet `malloc(16)` does not return null:
it does not return for any fuel, the scan never reaching a null pointer. -/
theorem exhausted_malloc_never_returns :
    ∃ (self : allocator) (hp : Heap),
      malloc_each 3 allocator.new (Heap.init 4096 4252) [100, 2 ^ 64 - 24, 8]
        = .ok ([4120, 4244, 4244], self, hp)
      ∧ self.head = 4220 ∧ (hp.hdr 4220).next = 4220 ∧ ¬ fits hp.hdr 16 4220
      ∧ (sbrk hp (to_intptr ((16 + META_SIZE) % 2 ^ 64))).1 = none
      ∧ ∀ fuel, self.malloc fuel hp 16 = .error Fault.diverged := by
  refine ⟨_, _, rfl, by decide, by decide, by decide, by decide, ?_⟩
  exact malloc_cycle _ _ 16 (by decide) (by decide) (by decide) (by decide)

/-- C6 (end-to-end reuse, as the code does it).  On a fresh allocator over a heap with a
non-null break and room for the four blocks, after `p1 = malloc(100)`, `p2 = malloc(200)`,
`p3 = malloc(100)`, `p4 = malloc(200)`, `free(p1)`, `free(p3)`: `malloc(50)` returns `p3`
(the block of `p3` is the first free block from the head, the list being newest first) and
the following `malloc(80)` returns `p1`; both are non-null, the head is unchanged, the list
still has the four blocks, now all in use, and the break has not moved. -/
theorem fragmentation_reuse_order (fuel : Nat) (hp : Heap) (hfuel : 4 ≤ fuel)
    (hbrk : 0 < hp.brk) (hstart : hp.start_brk ≤ hp.brk) (hroom : hp.brk + 696 ≤ hp.rlimit) :
    ∃ (p1 p2 p3 p4 p5 p6 : Nat) (a4 a6 : allocator) (h8 : Heap),
      fragmentation_and_reuse fuel hp = .ok ((p1, p2, p3, p4), (p5, p6), (a4, a6), h8)
      ∧ p5 = p3 ∧ p6 = p1 ∧ p5 ≠ 0 ∧ p6 ≠ 0 ∧ p3 ≠ p1
      ∧ a6 = a4
      ∧ Layout h8.hdr a6.head
          [(p4 - META_SIZE, 200, false), (p3 - META_SIZE, 100, false),
           (p2 - META_SIZE, 200, false), (p1 - META_SIZE, 100, false)]
      ∧ h8.brk = hp.brk + 696 := by
  obtain ⟨h8, e, l, b⟩ := fragmentation_and_reuse_eq fuel hp hfuel hbrk hstart hroom
  exact ⟨_, _, _, _, _, _, _, _, h8, e, rfl, rfl, by omega, by omega, by omega, rfl,
    by simpa [META_SIZE] using l, b⟩

/-- Witness of C6 on the heap whose break starts at 4096. -/
theorem fragmentation_reuse_order_witness :
    ∃ (p1 p2 p3 p4 p5 p6 : Nat) (a4 a6 : allocator) (h8 : Heap),
      fragmentation_and_reuse 4 (Heap.init 4096 (2 ^ 40))
        = .ok ((p1, p2, p3, p4), (p5, p6), (a4, a6), h8)
      ∧ p5 = p3 ∧ p6 = p1 ∧ p5 ≠ 0 ∧ p6 ≠ 0 ∧ p3 ≠ p1
      ∧ a6 = a4
      ∧ Layout h8.hdr a6.head
          [(p4 - META_SIZE, 200, false), (p3 - META_SIZE, 100, false),
           (p2 - META_SIZE, 200, false), (p1 - META_SIZE, 100, false)]
      ∧ h8.brk = (Heap.init 4096 (2 ^ 40)).brk + 696 :=
  fragmentation_reuse_order 4 (Heap.init 4096 (2 ^ 40)) (by decide) (by decide) (by decide)
    (by decide)

/-- Counterexample to C6 as stated: on the heap whose break starts at 4096 the scenario
yields `p1 = 4120`, `p3 = 4468`, and `malloc(50)` returns `4468`, not `p1`;
`malloc(80)` returns `4120`, not `p3`. -/
theorem fragmentation_first_reuse_is_not_p1 :
    ∃ (p1 p2 p3 p4 p5 p6 : Nat) (a : allocator × allocator) (h : Heap),
      fragmentation_and_reuse 4 (Heap.init 4096 (2 ^ 40))
        = .ok ((p1, p2, p3, p4), (p5, p6), a, h)
      ∧ p1 = 4120 ∧ p3 = 4468 ∧ p5 = 4468 ∧ p6 = 4120 ∧ p5 ≠ p1 ∧ p6 ≠ p3 := by
  obtain ⟨h8, hrun, -⟩ := fragmentation_and_reuse_eq 4 (Heap.init 4096 (2 ^ 40))
    (by decide) (by decide) (by decide) (by decide)
  exact ⟨_, _, _, _, _, _, _, h8, hrun, rfl, rfl, rfl, rfl, by decide, by decide⟩

/-- C7 at its failing input.  After `malloc(5000)` on a fresh allocator, block 4096 is in
use with size 5000 and `p = 4120`.  In `realloc(4120, 2^64 - 16)` the inner `malloc`
succeeds: its sum wraps to 8, `sbrk(8)` moves the break to 9128 and it returns 9144.  The
copy that follows, `memcpy(9144, 4120, 5000)`, has its whole destination above the break.
And after `malloc(100)`, `malloc(2^64 - 24)`, where `p = 4244` has recorded size
`2^64 - 24`, the inner `malloc` of `realloc(4244, 2^64 - 20)` returns 4244, which is `p`. -/
theorem growth_copy_leaves_heap :
    (∃ (self self1 : allocator) (hp hp1 : Heap),
      run_calls 1 allocator.new (Heap.init 4096 (2 ^ 40)) [.malloc 5000] = .ok (self, hp)
      ∧ Records hp.hdr self.head [4096]
      ∧ (hp.hdr (get_block_ptr 4120)).free = false
      ∧ (hp.hdr (get_block_ptr 4120)).size = 5000
      ∧ self.malloc 1 hp (2 ^ 64 - 16) = .ok (9144, self1, hp1)
      ∧ (hp1.hdr (get_block_ptr 4120)).size = 5000
      ∧ hp1.brk = 9128 ∧ hp1.brk < 9144)
    ∧ (∃ (self self1 : allocator) (hp hp1 : Heap),
      run_calls 2 allocator.new (Heap.init 4096 (2 ^ 40))
          [.malloc 100, .malloc (2 ^ 64 - 24)] = .ok (self, hp)
      ∧ Records hp.hdr self.head [4220, 4096]
      ∧ (hp.hdr (get_block_ptr 4244)).free = false
      ∧ (hp.hdr (get_block_ptr 4244)).size = 2 ^ 64 - 24
      ∧ self.malloc 2 hp (2 ^ 64 - 20) = .ok (4244, self1, hp1)) :=
  ⟨⟨_, _, _, _, rfl, by decide, by decide, by decide, rfl, by decide, by decide, by decide⟩,
    ⟨_, _, _, _, rfl, by decide, by decide, by decide, rfl⟩⟩

/-- C8 (failed growth is atomic).  For a non-null `p` whose block is in use with recorded size
`c < newSize`, in a state whose block list ends in null: when no block of the list is free
and large enough and `sbrk` fails, `realloc(p, newSize)` returns null with the same
allocator, and every header (so the block of `p` is still in use with size `c`), every
byte and the break are as before the call. -/
theorem realloc_failure_atomic (fuel : Nat) (self : allocator) (hp : Heap) (p newSize : Nat)
    (rs : List Nat)
    (hp0 : p ≠ 0)
    (hused : (hp.hdr (get_block_ptr p)).free = false)
    (hlt : (hp.hdr (get_block_ptr p)).size < newSize)
    (hrec : Records hp.hdr self.head rs)
    (hnone : ∀ x ∈ rs, ¬ fits hp.hdr newSize x)
    (hgrow : (sbrk hp (to_intptr ((newSize + META_SIZE) % 2 ^ 64))).1 = none)
    (hfuel : rs.length ≤ fuel) :
    ∃ hp' : Heap, self.realloc fuel hp p newSize = .ok (0, self, hp')
      ∧ hp'.hdr = hp.hdr ∧ hp'.mem = hp.mem ∧ hp'.brk = hp.brk
      ∧ (hp'.hdr (get_block_ptr p)).free = false
      ∧ (hp'.hdr (get_block_ptr p)).size = (hp.hdr (get_block_ptr p)).size
      ∧ Records hp'.hdr self.head rs := by
  refine ⟨{ hp with sbrk_calls := hp.sbrk_calls + 1 }, ?_, rfl, rfl, rfl, hused, rfl, hrec⟩
  unfold realloc
  rw [if_neg hp0, if_neg (by omega),
    malloc_miss_fail fuel self hp newSize rs hrec (by omega) hnone hfuel hgrow]
  simp

/-- Witness of C8: growing the only block to 200 bytes when the limit leaves no room. -/
theorem realloc_failure_atomic_witness :
    ∃ hp' : Heap, (allocator.mk 4096).realloc 1 heap_filled_exhausted 4120 200
        = .ok (0, ⟨4096⟩, hp')
      ∧ hp'.hdr = heap_filled_exhausted.hdr ∧ hp'.mem = heap_filled_exhausted.mem
      ∧ hp'.brk = heap_filled_exhausted.brk
      ∧ (hp'.hdr (get_block_ptr 4120)).free = false
      ∧ (hp'.hdr (get_block_ptr 4120)).size
          = (heap_filled_exhausted.hdr (get_block_ptr 4120)).size
      ∧ Records hp'.hdr (allocator.mk 4096).head [4096] :=
  realloc_failure_atomic 1 ⟨4096⟩ heap_filled_exhausted 4120 200 [4096]
    (by decide) (by decide) (by decide) (by decide) (by decide) (by decide) (by decide)

/-- C9 (resize within capacity).  For a non-null `p` whose block has recorded size `c` and any
`newSize <= c` (zero included), `realloc(p, newSize)` returns `p` and the allocator and the
whole heap (headers, bytes, break, count of `sbrk` calls) are exactly as before; hence any
sequence of such resizes keeps returning `p` in the unchanged state. -/
theorem realloc_within_capacity (fuel : Nat) (self : allocator) (hp : Heap) (p newSize : Nat)
    (hp0 : p ≠ 0) (hle : newSize ≤ (hp.hdr (get_block_ptr p)).size) :
    self.realloc fuel hp p newSize = .ok (p, self, hp)
    ∧ ∀ sizes : List Nat, (∀ n ∈ sizes, n ≤ (hp.hdr (get_block_ptr p)).size) →
        realloc_each fuel self hp p sizes = .ok (p, self, hp) := by
  have one : ∀ n, n ≤ (hp.hdr (get_block_ptr p)).size →
      self.realloc fuel hp p n = .ok (p, self, hp) := by
    intro n hn
    unfold realloc
    rw [if_neg hp0, if_pos hn]
  refine ⟨one newSize hle, ?_⟩
  intro sizes
  induction sizes with
  | nil => intro _; rfl
  | cons n ns ih =>
    intro hall
    unfold realloc_each
    rw [one n (hall n (List.mem_cons_self _ _))]
    exact ih (fun m hm => hall m (List.mem_cons_of_mem _ hm))

/-- Witness of C9: shrinking the 100-byte block of `heap_filled` to 50 bytes, and the
sequence of resizes to 50, 0 and 100 bytes. -/
theorem realloc_within_capacity_witness :
    (allocator.mk 4096).realloc 0 heap_filled 4120 50 = .ok (4120, ⟨4096⟩, heap_filled)
    ∧ realloc_each 0 ⟨4096⟩ heap_filled 4120 [50, 0, 100] = .ok (4120, ⟨4096⟩, heap_filled) :=
  ⟨(realloc_within_capacity 0 ⟨4096⟩ heap_filled 4120 50 (by decide) (by decide)).1,
    (realloc_within_capacity 0 ⟨4096⟩ heap_filled 4120 50 (by decide) (by decide)).2
      [50, 0, 100] (by decide)⟩

/-- C10 (overflow guard of `calloc`).  For all `nmemb` and `size`, the early return of
`calloc` is taken exactly when `size = 0` or the product `nmemb * size` exceeds `SIZE_MAX`;
when it is taken the result is null with the allocator and the heap unchanged, whatever the
fuel (neither `malloc` nor `sbrk` runs); when it is not taken the `size_t` product is the
exact product and `calloc` is `malloc` of that product followed by the zero-fill. -/
theorem calloc_overflow_guard (fuel : Nat) (self : allocator) (hp : Heap) (nmemb size : Nat) :
    (calloc_guard nmemb size = true ↔ (size = 0 ∨ SIZE_MAX < nmemb * size))
    ∧ (calloc_guard nmemb size = true → self.calloc fuel hp nmemb size = .ok (0, self, hp))
    ∧ (calloc_guard nmemb size = false →
        (nmemb * size) % 2 ^ 64 = nmemb * size
        ∧ self.calloc fuel hp nmemb size =
            match self.malloc fuel hp (nmemb * size) with
            | .error e => .error e
            | .ok (ptr, self1, hp1) =>
              if ptr ≠ 0 then .ok (ptr, self1, memset hp1 ptr 0 (nmemb * size))
              else .ok (ptr, self1, hp1)) := by
  have hiff : calloc_guard nmemb size = true ↔ (size = 0 ∨ SIZE_MAX < nmemb * size) := by
    unfold calloc_guard
    rcases Nat.eq_zero_or_pos size with h0 | hpos
    · subst h0; simp
    · have hne : size ≠ 0 := by omega
      simp only [Bool.or_eq_true, decide_eq_true_eq, hne, false_or, gt_iff_lt]
      exact Nat.div_lt_iff_lt_mul hpos
  refine ⟨hiff, ?_, ?_⟩
  · intro hg
    unfold calloc
    rw [if_pos hg]
  · intro hg
    have hnot : ¬ (size = 0 ∨ SIZE_MAX < nmemb * size) := by
      rw [← hiff, hg]
      exact Bool.false_ne_true
    have hmod : (nmemb * size) % 2 ^ 64 = nmemb * size := by
      apply Nat.mod_eq_of_lt
      unfold SIZE_MAX at hnot
      omega
    refine ⟨hmod, ?_⟩
    unfold calloc
    rw [hg, hmod]
    rfl

/-- Witness of C10: `calloc(SIZE_MAX, 2)` is null and changes nothing. -/
theorem calloc_overflow_guard_witness :
    allocator.new.calloc 0 (Heap.init 4096 (2 ^ 40)) SIZE_MAX 2
      = .ok (0, allocator.new, Heap.init 4096 (2 ^ 40)) :=
  (calloc_overflow_guard 0 allocator.new (Heap.init 4096 (2 ^ 40)) SIZE_MAX 2).2.1 (by decide)

/-- C11 at its failing input.  `calloc(1, 2^64 - 16)` on a fresh allocator (break 4096)
passes the guard and its product is exact; `malloc(2^64 - 16)` returns the non-null 4120
after moving the break by 8 bytes to 4104.  The range `calloc` then hands to `memset`,
`2^64 - 16` bytes from 4120 on, lies above the break from its first byte. -/
theorem zero_fill_leaves_heap :
    calloc_guard 1 (2 ^ 64 - 16) = false
    ∧ (1 * (2 ^ 64 - 16)) % 2 ^ 64 = 1 * (2 ^ 64 - 16)
    ∧ 1 * (2 ^ 64 - 16) ≤ SIZE_MAX
    ∧ ∃ (self1 : allocator) (hp1 : Heap),
        allocator.new.malloc 0 (Heap.init 4096 (2 ^ 40)) (1 * (2 ^ 64 - 16))
          = .ok (4120, self1, hp1)
        ∧ hp1.brk = 4104 ∧ hp1.brk < 4120 :=
  ⟨by decide, by decide, by decide, _, _, rfl, by decide, by decide⟩

/-- C12 at its failing input.  On a fresh allocator (break 4096), `malloc(5000)`,
`malloc(2^64 - 124)` and `malloc(8)` return 4120, 9144 and 9044; all three blocks are in
use.  `free(9044)` writes the flag of the header at 9020, and that header lies inside the
payload `[4120, 9120)` of block 4096: the call changes a byte of the data region of the
outstanding pointer 4120. -/
theorem free_writes_into_live_payload :
    ∃ (self : allocator) (hp hp' : Heap),
      run_calls 3 allocator.new (Heap.init 4096 (2 ^ 40))
          [.malloc 5000, .malloc (2 ^ 64 - 124), .malloc 8] = .ok (self, hp)
      ∧ Records hp.hdr self.head [9020, 9120, 4096]
      ∧ (hp.hdr 4096).free = false ∧ (hp.hdr 4096).size = 5000
      ∧ get_block_ptr 9044 = 9020
      ∧ (hp.hdr 9020).free = false
      ∧ self.free hp 9044 = .ok hp'
      ∧ (hp'.hdr 9020).free = true
      ∧ header_in_payload hp.hdr 9020 4096 :=
  ⟨_, _, _, rfl, by decide, by decide, by decide, by decide, by decide, rfl, by decide,
    by decide⟩

/-- C13 at its failing input.  After `malloc(100)` and `malloc(2^64 - 24)` on a fresh
allocator the list is 4220, 4096.  The call `malloc(8)` returns, and afterwards the record
4220 of the old list has size 8 instead of `2^64 - 24` and `next` 4220 instead of 4096; the
list from the head is neither the old list nor the old list with one block before it. -/
theorem call_resizes_old_record :
    ∃ (self self' : allocator) (hp hp' : Heap),
      run_calls 2 allocator.new (Heap.init 4096 (2 ^ 40))
          [.malloc 100, .malloc (2 ^ 64 - 24)] = .ok (self, hp)
      ∧ Records hp.hdr self.head [4220, 4096]
      ∧ (Call.malloc 8).run 2 self hp = .ok (4244, self', hp')
      ∧ (hp.hdr 4220).size = 2 ^ 64 - 24 ∧ (hp'.hdr 4220).size = 8
      ∧ (hp.hdr 4220).next = 4096 ∧ (hp'.hdr 4220).next = 4220
      ∧ ¬ Records hp'.hdr self'.head [4220, 4096]
      ∧ ∀ b, ¬ Records hp'.hdr self'.head (b :: [4220, 4096]) :=
  ⟨_, _, _, _, rfl, by decide, rfl, by decide, by decide, by decide, by decide,
    Records.not_of_self_loop _ _ (by decide) (by decide) _,
    fun _ => Records.not_of_self_loop _ _ (by decide) (by decide) _⟩

/-- C14 at its failing input.  On a fresh allocator over the heap whose break is 4096,
`malloc(2^64 - 16)` takes the miss path and `sbrk` succeeds, but the sum `size + META_SIZE`
has wrapped to `8`: the break moves to 4104, by 8 bytes and not by `2^64 + 8`, and the
returned pointer 4120 with its recorded `2^64 - 16` bytes lies beyond the break.  On
`heap_filled` (break 4220), `malloc(2^64 - 124)` takes the miss path and `sbrk` succeeds
with the increment `-100`: the break moves down to 4120 and the returned pointer is 4244. -/
theorem overflow_breaks_exact_growth :
    ((sbrk (Heap.init 4096 (2 ^ 40)) (to_intptr ((2 ^ 64 - 16 + META_SIZE) % 2 ^ 64))).1
        = some 4096
      ∧ ∃ hp' : Heap, allocator.new.malloc 0 (Heap.init 4096 (2 ^ 40)) (2 ^ 64 - 16)
          = .ok (4120, ⟨4096⟩, hp')
        ∧ (hp'.hdr 4096).size = 2 ^ 64 - 16
        ∧ hp'.brk = 4104 ∧ hp'.brk ≠ (Heap.init 4096 (2 ^ 40)).brk + (2 ^ 64 - 16 + META_SIZE)
        ∧ hp'.brk < 4120)
    ∧ ((sbrk heap_filled (to_intptr ((2 ^ 64 - 124 + META_SIZE) % 2 ^ 64))).1 = some 4220
      ∧ to_intptr ((2 ^ 64 - 124 + META_SIZE) % 2 ^ 64) = -100
      ∧ ∃ hp' : Heap, (allocator.mk 4096).malloc 1 heap_filled (2 ^ 64 - 124)
          = .ok (4244, ⟨4220⟩, hp')
        ∧ hp'.brk = 4120 ∧ hp'.brk < heap_filled.brk) :=
  ⟨⟨by decide, _, rfl, by decide, by decide, by decide, by decide⟩,
    ⟨by decide, by decide, _, rfl, by decide, by decide⟩⟩

/-- C15 at its failing input.  Two allocators on one fresh heap (break 4096):
`alloc1.malloc(100)` returns 4120, `alloc2.malloc(2^64 - 24)` returns 4244 (its sum wraps,
`sbrk(0)` leaves the break at 4220), and the list of `alloc2` is the one block 4220 of size
`2^64 - 24`.  Then `alloc1.malloc(8)` returns 4244, the pointer `alloc2` holds, and rewrites
the record of `alloc2`: its size becomes 8 and its `next` 4096, so that the list of `alloc2`
now runs on into the block of `alloc1`. -/
theorem instance_takes_block_of_other :
    ∃ (a1 a2 a1' : allocator) (h1 h2 h3 : Heap),
      allocator.new.malloc 0 (Heap.init 4096 (2 ^ 40)) 100 = .ok (4120, a1, h1)
      ∧ allocator.new.malloc 0 h1 (2 ^ 64 - 24) = .ok (4244, a2, h2)
      ∧ Records h2.hdr a1.head [4096] ∧ Records h2.hdr a2.head [4220]
      ∧ (h2.hdr 4220).free = false ∧ (h2.hdr 4220).size = 2 ^ 64 - 24
      ∧ a1.malloc 1 h2 8 = .ok (4244, a1', h3)
      ∧ (h3.hdr 4220).size = 8 ∧ (h3.hdr 4220).next = 4096
      ∧ Records h3.hdr a2.head [4220, 4096] :=
  ⟨_, _, _, _, _, _, rfl, rfl, by decide, by decide, by decide, by decide, rfl, by decide,
    by decide, by decide⟩

/-- C16 (`realloc` of null).  For every fuel, allocator, heap and size (zero included),
`realloc(nullptr, size)` is `malloc(size)`: the same result, the same allocator and heap
after the call, and the same failure to return when the list is not null-terminated. -/
theorem realloc_null_is_malloc (fuel : Nat) (self : allocator) (hp : Heap) (size : Nat) :
    self.realloc fuel hp 0 size = self.malloc fuel hp size := by
  unfold realloc
  rw [if_pos rfl]

/-- Example for C16: on a fresh allocator `realloc(nullptr, 100)` returns the non-null
pointer that `malloc(100)` returns. -/
theorem realloc_null_is_malloc_witness :
    ∃ hp' : Heap, allocator.new.realloc 0 (Heap.init 4096 (2 ^ 40)) 0 100
        = .ok (4120, ⟨4096⟩, hp')
      ∧ allocator.new.malloc 0 (Heap.init 4096 (2 ^ 40)) 100 = .ok (4120, ⟨4096⟩, hp') :=
  ⟨_, (realloc_null_is_malloc 0 allocator.new (Heap.init 4096 (2 ^ 40)) 100).trans rfl, rfl⟩

/-- C17 (zero-size `malloc`).  For every fuel, allocator and heap, also one with a free block
or a list that is not null-terminated, `malloc(0)` returns null with the allocator and the
whole heap (headers, bytes, break, count of `sbrk` calls) exactly as before; so a `malloc`
made after it is the `malloc` made without it. -/
theorem malloc_zero_is_noop (fuel : Nat) (self : allocator) (hp : Heap) :
    self.malloc fuel hp 0 = .ok (0, self, hp)
    ∧ ∀ (fuel' size : Nat),
        (match self.malloc fuel hp 0 with
          | .error e => .error e
          | .ok (_, self1, hp1) => self1.malloc fuel' hp1 size)
        = self.malloc fuel' hp size := by
  refine ⟨malloc_zero fuel self hp, ?_⟩
  intro fuel' size
  rw [malloc_zero fuel self hp]

/-- Example for C17: `malloc(0)` on the heap with two free blocks, with no fuel at all. -/
theorem malloc_zero_is_noop_witness :
    (allocator.mk 4180).malloc 0 heap_two_free 0 = .ok (0, ⟨4180⟩, heap_two_free) :=
  (malloc_zero_is_noop 0 ⟨4180⟩ heap_two_free).1

/-- C18 (`free` of null).  For every allocator and heap, also one in which the header the
assertion would read is marked free, `free(nullptr)` returns with the heap exactly as
before. -/
theorem free_null_is_noop (self : allocator) (hp : Heap) :
    self.free hp 0 = .ok hp := by
  unfold free
  rw [if_pos rfl]

/-- Example for C18: on the fresh heap the header at `get_block_ptr 0` is marked free, so the
assertion would fail if it were evaluated; `free(nullptr)` returns all the same. -/
theorem free_null_is_noop_witness :
    ((Heap.init 4096 (2 ^ 40)).hdr (get_block_ptr 0)).free = true
    ∧ allocator.new.free (Heap.init 4096 (2 ^ 40)) 0 = .ok (Heap.init 4096 (2 ^ 40)) :=
  ⟨by decide, free_null_is_noop allocator.new (Heap.init 4096 (2 ^ 40))⟩

/-- C19 at its failing input.  On a fresh allocator (break 4096), `malloc(5000)`,
`malloc(2^64 - 124)` and `malloc(8)` leave block 4096 in use with size 5000 and the break at
9052.  `realloc(4120, 6000)` reaches `memcpy`: the pointer is non-null, 5000 < 6000, and the
inner `malloc(6000)` returns the non-null 9076.  The copy is `memcpy(9076, 4120, 5000)`, and
the destination `[9076, 14076)` and the source `[4120, 9120)` have the bytes
`[9076, 9120)` in common. -/
theorem growth_copy_overlaps :
    ∃ (self self1 : allocator) (hp hp1 : Heap),
      run_calls 3 allocator.new (Heap.init 4096 (2 ^ 40))
          [.malloc 5000, .malloc (2 ^ 64 - 124), .malloc 8] = .ok (self, hp)
      ∧ Records hp.hdr self.head [9020, 9120, 4096] ∧ hp.brk = 9052
      ∧ (hp.hdr (get_block_ptr 4120)).free = false
      ∧ (hp.hdr (get_block_ptr 4120)).size = 5000
      ∧ self.malloc 3 hp 6000 = .ok (9076, self1, hp1)
      ∧ (hp1.hdr (get_block_ptr 4120)).size = 5000
      ∧ 9076 < 4120 + (hp1.hdr (get_block_ptr 4120)).size
      ∧ 4120 < 9076 + (hp1.hdr (get_block_ptr 4120)).size :=
  ⟨_, _, _, _, rfl, by decide, by decide, by decide, by decide, rfl, by decide, by decide,
    by decide⟩

/-- C20 (zero-count `calloc`).  For every `size > 0`, `calloc(0, size)` is not stopped by the
guard, its total is `0`, and it returns null through `malloc(0)` with the allocator and the
whole heap (bytes and count of `sbrk` calls included) exactly as before, for any fuel; and
`calloc(nmemb, 0)` returns null with the state unchanged as well. -/
theorem calloc_zero_count (fuel : Nat) (self : allocator) (hp : Heap) (nmemb size : Nat)
    (hsize : 0 < size) :
    calloc_guard 0 size = false
    ∧ (0 * size) % 2 ^ 64 = 0
    ∧ self.malloc fuel hp ((0 * size) % 2 ^ 64) = .ok (0, self, hp)
    ∧ self.calloc fuel hp 0 size = .ok (0, self, hp)
    ∧ self.calloc fuel hp nmemb 0 = .ok (0, self, hp) := by
  have hg : calloc_guard 0 size = false := by
    unfold calloc_guard
    have : size ≠ 0 := by omega
    simp [this]
  have hz : (0 * size) % 2 ^ 64 = 0 := by simp
  refine ⟨hg, hz, by rw [hz]; exact malloc_zero fuel self hp, ?_, ?_⟩
  · unfold calloc
    rw [hg, hz, malloc_zero fuel self hp]
    simp
  · unfold calloc calloc_guard
    simp

/-- Witness of C20: `calloc(0, 4)` on the heap with two free blocks. -/
theorem calloc_zero_count_witness :
    calloc_guard 0 4 = false
    ∧ (0 * 4) % 2 ^ 64 = 0
    ∧ (allocator.mk 4180).malloc 0 heap_two_free ((0 * 4) % 2 ^ 64)
        = .ok (0, ⟨4180⟩, heap_two_free)
    ∧ (allocator.mk 4180).calloc 0 heap_two_free 0 4 = .ok (0, ⟨4180⟩, heap_two_free)
    ∧ (allocator.mk 4180).calloc 0 heap_two_free 7 0 = .ok (0, ⟨4180⟩, heap_two_free) :=
  calloc_zero_count 0 ⟨4180⟩ heap_two_free 7 4 (by decide)

end Smalloc
